import Mathlib

/-
Verification of the SAT-based minor-embedding encoder (SAT-Chains).

The definitions below are a shallow embedding of the Python sources:
  src/cnf_generator.py            (subset-mode generator, deduplicating add_clause)
  src/cnf_generator_qubit_max.py  (connected-subset generator with fixed-mapping
                                   filtering and the max_total_qubits encoding)
  src/cnf_generator_path.py       (path-mode generator, incremental DIMACS append)
  src/solver_interface.py         (worker result classification, aux-literal wrapping)
  src/experiment_runner.py        (enumeration loop structure)

Physical and logical nodes are natural numbers; SAT literals are integers
(positive = the variable, negative = its negation), exactly as in the DIMACS
material the code manipulates.
-/

open List

/- Graphs: node list plus an undirected edge list (networkx graphs expose
   node/edge enumeration; has_edge is symmetric). -/

structure Graph where
  nodes : List Nat
  edges : List (Nat × Nat)
deriving DecidableEq

def has_edge (G : Graph) (u v : Nat) : Bool :=
  G.edges.any (fun e => (e.1 == u && e.2 == v) || (e.1 == v && e.2 == u))

def neighborsOf (G : Graph) (u : Nat) : List Nat :=
  G.nodes.filter (fun v => has_edge G u v)

/- sorted(G.nodes()) -/
def sortedNodes (G : Graph) : List Nat :=
  List.insertionSort (· ≤ ·) G.nodes

/- itertools.combinations: all sublists of the given length, in order. -/
def combinations : Nat → List Nat → List (List Nat)
  | 0, _ => [[]]
  | _ + 1, [] => []
  | k + 1, a :: t => (combinations k t).map (fun s => a :: s) ++ combinations (k + 1) t

/- nx.is_connected(G.subgraph(S)): breadth-first saturation inside S, starting
   from the first element, iterated |S| times; connected iff everything in S is
   reached.  The null graph is not connected. -/
def reachStep (G : Graph) (S reached : List Nat) : List Nat :=
  S.filter (fun v => reached.contains v || reached.any (fun u => has_edge G u v))

def reachExpand (G : Graph) (S : List Nat) : Nat → List Nat → List Nat
  | 0, reached => reached
  | n + 1, reached => reachExpand G S n (reachStep G S reached)

def isConnected (G : Graph) (S : List Nat) : Bool :=
  match S with
  | [] => false
  | h :: _ => S.all (fun v => (reachExpand G S S.length [h]).contains v)

/- The embedding_constraints configuration dictionary. -/
structure Constraints where
  default_allowed_expansions : List Nat
  per_node : List (Nat × List Nat)
  fixed_mapping : List (Nat × List Nat)
  max_total_qubits : Option Nat
deriving DecidableEq

def allowedSizes (ec : Constraints) (i : Nat) : List Nat :=
  (ec.per_node.lookup i).getD ec.default_allowed_expansions

def requiredOf (ec : Constraints) (i : Nat) : List Nat :=
  (ec.fixed_mapping.lookup i).getD []

/- cnf_generator.CNFGenerator.generate_chain_variables: for each allowed
   length, every combination of physical nodes whose induced subgraph is
   connected (fixed_mapping is NOT consulted here). -/
def subsetChainsFor (Gp : Graph) (ec : Constraints) (i : Nat) : List (List Nat) :=
  (allowedSizes ec i).flatMap (fun k =>
    (combinations k (sortedNodes Gp)).filter (fun s => isConnected Gp s))

/- cnf_generator_qubit_max.CNFGenerator.generate_connected_chains: combinations
   filtered by the required fixed subset and connectivity, stored sorted. -/
def qubitChainsFor (Gp : Graph) (ec : Constraints) (i : Nat) : List (List Nat) :=
  (allowedSizes ec i).flatMap (fun k =>
    (combinations k (sortedNodes Gp)).flatMap (fun s =>
      if (requiredOf ec i).all (fun r => s.contains r) && isConnected Gp s
      then [List.insertionSort (· ≤ ·) s] else []))

/- cnf_generator_path.CNFGenerator.generate_path_chains: depth-first extension
   of simple paths (no revisits) until the target length is reached.  The fuel
   argument bounds the number of extensions; target extensions always suffice
   since each extension grows the path by one node. -/
def dfsExtend (G : Graph) (target : Nat) : Nat → Nat → List Nat → List (List Nat)
  | 0, _, path => if path.length = target then [path] else []
  | fuel + 1, node, path =>
    if path.length = target then [path]
    else ((neighborsOf G node).filter (fun nb => !path.contains nb)).flatMap
      (fun nb => dfsExtend G target fuel nb (path ++ [nb]))

def pathChainsRaw (Gp : Graph) (ec : Constraints) (i : Nat) : List (List Nat) :=
  (allowedSizes ec i).flatMap (fun len =>
    (sortedNodes Gp).flatMap (fun start => dfsExtend Gp len len start [start]))

/- chains = list({tuple(sorted(c)) for c in chains}) -/
def pathChainsFor (Gp : Graph) (ec : Constraints) (i : Nat) : List (List Nat) :=
  ((pathChainsRaw Gp ec i).map (fun c => List.insertionSort (· ≤ ·) c)).dedup

/- Variable allocation: one pass over the logical nodes, vid starting at 1 and
   advanced once per candidate chain; chain_var_map[(i, idx)] = vid.  Nodes
   with no chains allocate nothing (the source skips them with `continue`). -/
def allocVars : List Nat → (Nat → List (List Nat)) → Nat → List ((Nat × Nat) × Nat)
  | [], _, _ => []
  | i :: rest, chains, vid =>
    ((List.range (chains i).length).map (fun idx => ((i, idx), vid + idx)))
      ++ allocVars rest chains (vid + (chains i).length)

def varOf (nodes : List Nat) (chains : Nat → List (List Nat)) (i idx : Nat) : Nat :=
  ((allocVars nodes chains 1).lookup (i, idx)).getD 0

def chainVarValues (nodes : List Nat) (chains : Nat → List (List Nat)) : List Nat :=
  (allocVars nodes chains 1).map (fun e => e.2)

/- num_vars = vid - 1 after the allocation pass. -/
def finalVid : List Nat → (Nat → List (List Nat)) → Nat → Nat
  | [], _, vid => vid
  | i :: rest, chains, vid => finalVid rest chains (vid + (chains i).length)

def numVarsOf (nodes : List Nat) (chains : Nat → List (List Nat)) : Nat :=
  finalVid nodes chains 1 - 1

def totalChains (nodes : List Nat) (chains : Nat → List (List Nat)) : Nat :=
  (nodes.map (fun i => (chains i).length)).sum

/- The keys of the valid_chains dictionary: logical nodes holding at least one
   candidate chain, in order. -/
def validNodes (nodes : List Nat) (chains : Nat → List (List Nat)) : List Nat :=
  nodes.filter (fun i => !(chains i).isEmpty)

/- Literal and clause semantics over an assignment of the positive variables. -/
def litSat (A : Nat → Bool) (l : Int) : Bool :=
  if 0 < l then A l.toNat else !(A (-l).toNat)

def clauseSat (A : Nat → Bool) (c : List Int) : Bool :=
  c.any (fun l => litSat A l)

def satAll (A : Nat → Bool) (cls : List (List Int)) : Prop :=
  ∀ c ∈ cls, clauseSat A c = true

/- set(chain_a) & set(chain_b) is non-empty -/
def sharesNode (c d : List Nat) : Bool :=
  c.any (fun u => d.contains u)

/- any(G_phys.has_edge(u, v) for u in chain_i for v in chain_j) -/
def anyEdge (G : Graph) (c d : List Nat) : Bool :=
  c.any (fun u => d.any (fun v => has_edge G u v))

def intVar (nodes : List Nat) (chains : Nat → List (List Nat)) (i idx : Nat) : Int :=
  (varOf nodes chains i idx : Int)

/- itertools.combinations(l, 2), i.e. ordered unordered pairs. -/
def combos2 : List Nat → List (Nat × Nat)
  | [] => []
  | a :: t => t.map (fun b => (a, b)) ++ combos2 t

/- encode_exactly_one_chain_per_logical / encode_exactly_one: for every node of
   valid_chains, the at-least-one clause followed by the pairwise at-most-one
   clauses, in loop order.  Each entry carries the clause and its ctype tag. -/
def exactlyOneTyped (nodes : List Nat) (chains : Nat → List (List Nat)) :
    List (List Int × String) :=
  (validNodes nodes chains).flatMap (fun i =>
    ((List.range (chains i).length).map (fun idx => intVar nodes chains i idx),
      "at_least_one_chain")
    :: (combos2 (List.range (chains i).length)).map (fun p =>
        ([-(intVar nodes chains i p.1), -(intVar nodes chains i p.2)],
          "at_most_one_chain")))

/- encode_chain_exclusivity: for every unordered pair of logical nodes and
   every pair of their chains sharing a physical node, forbid both. -/
def exclusivityTyped (nodes : List Nat) (chains : Nat → List (List Nat)) :
    List (List Int × String) :=
  (combos2 nodes).flatMap (fun ab =>
    (List.range (chains ab.1).length).flatMap (fun ia =>
      (List.range (chains ab.2).length).flatMap (fun ib =>
        if sharesNode ((chains ab.1).getD ia []) ((chains ab.2).getD ib [])
        then [([-(intVar nodes chains ab.1 ia), -(intVar nodes chains ab.2 ib)],
          "chain_exclusivity")]
        else [])))

/- encode_edge_consistency: for every logical edge and every chain pair with no
   connecting physical edge, forbid both. -/
def edgeTyped (Gl Gp : Graph) (nodes : List Nat) (chains : Nat → List (List Nat)) :
    List (List Int × String) :=
  Gl.edges.flatMap (fun e =>
    (List.range (chains e.1).length).flatMap (fun ii =>
      (List.range (chains e.2).length).flatMap (fun jj =>
        if anyEdge Gp ((chains e.1).getD ii []) ((chains e.2).getD jj [])
        then []
        else [([-(intVar nodes chains e.1 ii), -(intVar nodes chains e.2 jj)],
          "edge_consistency")])))

/- encode_fixed_mappings: unit clauses forbidding candidates that do not carry
   the whole required subset (only for nodes present in valid_chains). -/
def fixedTyped (ec : Constraints) (nodes : List Nat) (chains : Nat → List (List Nat)) :
    List (List Int × String) :=
  ec.fixed_mapping.flatMap (fun ir =>
    if nodes.contains ir.1 && !(chains ir.1).isEmpty then
      (List.range (chains ir.1).length).flatMap (fun idx =>
        if ir.2.all (fun r => ((chains ir.1).getD idx []).contains r) then []
        else [([-(intVar nodes chains ir.1 idx)], "fixed_mapping")])
    else [])

/- cnf_generator.CNFGenerator clause store: clauses, clause_type, and the
   clause_set of sorted-literal keys used to skip duplicates. -/
structure GenState where
  clauses : List (List Int)
  clause_type : List String
  clause_set : List (List Int)
deriving DecidableEq

def sortKey (l : List Int) : List Int :=
  List.insertionSort (· ≤ ·) l

def initGenState : GenState := ⟨[], [], []⟩

def add_clause (st : GenState) (lits : List Int) (ctype : String) : GenState :=
  if sortKey lits ∈ st.clause_set then st
  else ⟨st.clauses ++ [lits], st.clause_type ++ [ctype], st.clause_set ++ [sortKey lits]⟩

def foldAdd (st : GenState) (l : List (List Int × String)) : GenState :=
  l.foldl (fun s p => add_clause s p.1 p.2) st

/- cnf_generator.CNFGenerator.generate(): fixed mappings, then exactly-one,
   chain exclusivity, and edge consistency, all through add_clause. -/
def subsetEmitted (Gl Gp : Graph) (ec : Constraints) : List (List Int × String) :=
  fixedTyped ec (sortedNodes Gl) (subsetChainsFor Gp ec)
    ++ exactlyOneTyped (sortedNodes Gl) (subsetChainsFor Gp ec)
    ++ exclusivityTyped (sortedNodes Gl) (subsetChainsFor Gp ec)
    ++ edgeTyped Gl Gp (sortedNodes Gl) (subsetChainsFor Gp ec)

def subsetPipeline (Gl Gp : Graph) (ec : Constraints) : GenState :=
  foldAdd initGenState (subsetEmitted Gl Gp ec)

/- The embeddable flag and reject_reasons accumulated by
   generate_chain_variables (the loop continues past a chainless node). -/
def subsetEmbeddableAfterGen (Gl Gp : Graph) (ec : Constraints) : Bool :=
  (sortedNodes Gl).all (fun i => !(subsetChainsFor Gp ec i).isEmpty)

def subsetRejectReasons (Gl Gp : Graph) (ec : Constraints) : List String :=
  ((sortedNodes Gl).filter (fun i => (subsetChainsFor Gp ec i).isEmpty)).map
    (fun i => "Nessuna catena valida per nodo logico " ++ toString i)

/- generate() guards on self.embeddable as it stands when generate() is
   entered (True straight after construction), not on the flag produced by
   chain generation. -/
def subsetGenerate (Gl Gp : Graph) (ec : Constraints) (embeddable0 : Bool) : GenState :=
  if embeddable0 then subsetPipeline Gl Gp ec else initGenState

/- add_blocking_clause_from_model: negations of the model literals that are
   positive chain variables; skipped when there are none. -/
def activeChainVars (values : List Nat) (model : List Int) : List Int :=
  model.filter (fun l => decide (0 < l) && values.contains l.toNat)

def blockingClauseOf (values : List Nat) (model : List Int) : List Int :=
  (activeChainVars values model).map (fun l => -l)

def add_blocking_clause_from_model (st : GenState) (values : List Nat)
    (model : List Int) : GenState × Bool :=
  if (activeChainVars values model).isEmpty then (st, false)
  else (add_clause st (blockingClauseOf values model) "blocking", true)

/- cnf_generator_qubit_max: vars_per_node, itertools.product over one chain
   variable per logical node, and the per-combination qubit-budget blocking. -/
def varsPerNode (nodes : List Nat) (chains : Nat → List (List Nat)) : List (List Nat) :=
  nodes.map (fun i => (List.range (chains i).length).map (fun idx => varOf nodes chains i idx))

def productList : List (List Nat) → List (List Nat)
  | [] => [[]]
  | l :: ls => l.flatMap (fun a => (productList ls).map (fun s => a :: s))

/- list.index(v): position of the first occurrence. -/
def idxOf : List Nat → Nat → Nat
  | [], _ => 0
  | a :: t, v => if a = v then 0 else idxOf t v + 1

def totalQubitsOf (nodes : List Nat) (chains : Nat → List (List Nat))
    (sel : List Nat) : Nat :=
  ((sel.zip (nodes.zip (varsPerNode nodes chains))).map
    (fun t => ((chains t.2.1).getD (idxOf t.2.2 t.1) []).length)).sum

def maxQubitClauses (nodes : List Nat) (chains : Nat → List (List Nat)) (Q : Nat) :
    List (List Int) :=
  (productList (varsPerNode nodes chains)).flatMap (fun sel =>
    if Q < totalQubitsOf nodes chains sel
    then [sel.map (fun (v : Nat) => -(v : Int))] else [])

/- cnf_generator_qubit_max.CNFGenerator.generate: add_clause is a plain append
   there, so the final clause list is the emission sequence itself. -/
def qubitPipelineClauses (Gl Gp : Graph) (ec : Constraints) : List (List Int) :=
  (exactlyOneTyped (sortedNodes Gl) (qubitChainsFor Gp ec)).map (fun p => p.1)
    ++ (exclusivityTyped (sortedNodes Gl) (qubitChainsFor Gp ec)).map (fun p => p.1)
    ++ (edgeTyped Gl Gp (sortedNodes Gl) (qubitChainsFor Gp ec)).map (fun p => p.1)
    ++ (match ec.max_total_qubits with
        | none => []
        | some Q => maxQubitClauses (sortedNodes Gl) (qubitChainsFor Gp ec) Q)

/- Smallest candidate-chain size of a node and their sum. -/
def minOf : List Nat → Nat
  | [] => 0
  | a :: t => t.foldl Nat.min a

def minChainSum (nodes : List Nat) (chains : Nat → List (List Nat)) : Nat :=
  (nodes.map (fun i => minOf ((chains i).map (fun c => c.length)))).sum

/- The first candidate index a satisfying assignment marks true at a node. -/
def chosenIdx (A : Nat → Bool) (nodes : List Nat) (chains : Nat → List (List Nat))
    (i : Nat) : Nat :=
  (((List.range (chains i).length).filter
    (fun idx => A (varOf nodes chains i idx))).headD 0)

/- The persisted DIMACS file: header counts plus one line per clause. -/
structure DimacsFile where
  header_vars : Nat
  header_clauses : Nat
  clause_lines : List (List Int)
deriving DecidableEq

def write_dimacs (numVars : Nat) (clauses : List (List Int)) : DimacsFile :=
  ⟨numVars, clauses.length, clauses⟩

/- The r+ append of add_blocking_clause_from_model (path / qubit_max
   variants): bump the header clause count, append the clause line. -/
def appendClauseToFile (f : DimacsFile) (c : List Int) : DimacsFile :=
  ⟨f.header_vars, f.header_clauses + 1, f.clause_lines ++ [c]⟩

def add_blocking_with_file (clauses : List (List Int)) (f : DimacsFile)
    (values : List Nat) (model : List Int) :
    List (List Int) × DimacsFile × Bool :=
  if (activeChainVars values model).isEmpty then (clauses, f, false)
  else (clauses ++ [blockingClauseOf values model],
    appendClauseToFile f (blockingClauseOf values model), true)

def foldBlocking (values : List Nat) (start : List (List Int) × DimacsFile)
    (models : List (List Int)) : List (List Int) × DimacsFile :=
  models.foldl (fun s m =>
    ((add_blocking_with_file s.1 s.2 values m).1,
      (add_blocking_with_file s.1 s.2 values m).2.1)) start

/- solver_interface.solve_dimacs_file: classification of the worker outcome.
   stillRunning models p.is_alive() after join(timeout_seconds). -/
inductive WorkerReport where
  | stillRunning : WorkerReport
  | finished (sat : Bool) (model : Option (List Int)) (core : Option (List Int))
      (error : Option String) : WorkerReport
deriving DecidableEq

structure SolveResult where
  status : String
  model : Option (List Int)
  unsat_core : Option (List Int)
  error : Option String
deriving DecidableEq

def coreClauseIds (numVars : Nat) (core : List Int) : List Int :=
  (core.filter (fun l => decide (0 < l))).map (fun l => l - (numVars : Int) - 1)

def solve_dimacs_result (numVars : Nat) (hasCnfGen : Bool) (w : WorkerReport) :
    SolveResult :=
  match w with
  | .stillRunning => ⟨"ERROR", none, none, some "Timeout expired"⟩
  | .finished sat model core err =>
    match err with
    | some msg => ⟨"ERROR", none, none, some msg⟩
    | none =>
      if sat then ⟨"SAT", model, none, none⟩
      else ⟨"UNSAT", none,
        (match core with
         | some cor =>
           if hasCnfGen && !cor.isEmpty then some (coreClauseIds numVars cor) else none
         | none => none), none⟩

/- _solve_process: every stored clause is fed to the solver as
   [-aux_lit] + clause with aux_lit = num_vars + idx + 1, and every aux_lit is
   passed as an assumption. -/
def wrapClauses (numVars : Nat) (cls : List (List Int)) : List (List Int) :=
  (List.range cls.length).map (fun idx =>
    (-((numVars + idx + 1 : Nat) : Int)) :: cls.getD idx [])

def assumptionLits (numVars : Nat) (cls : List (List Int)) : List Nat :=
  (List.range cls.length).map (fun idx => numVars + idx + 1)

/- Helper: first-occurrence offset of a logical node in the allocation pass. -/
def offsetOf : List Nat → (Nat → List (List Nat)) → Nat → Nat
  | [], _, _ => 0
  | n :: rest, chains, i =>
    if n = i then 0 else (chains n).length + offsetOf rest chains i

/- Path predicate: consecutive physical nodes are adjacent. -/
def chainPathB (G : Graph) : List Nat → Bool
  | [] => true
  | [_] => true
  | a :: b :: t => has_edge G a b && chainPathB G (b :: t)

/- Invariant of the deduplicating clause store: clause_set is exactly the set
   of sorted-literal keys of the stored clauses. -/
def GenInv (st : GenState) : Prop :=
  st.clause_set = st.clauses.map sortKey

/- A clause is present in the store up to literal order. -/
def PermMem (st : GenState) (x : List Int) : Prop :=
  ∃ c ∈ st.clauses, c.Perm x

/- ------------------------------------------------------------------ -/
/- List and sorting utilities                                          -/
/- ------------------------------------------------------------------ -/

theorem sortKey_perm (l : List Int) : (sortKey l).Perm l :=
  List.perm_insertionSort _ l

theorem sortKey_eq_of_perm {l m : List Int} (h : l.Perm m) : sortKey l = sortKey m :=
  List.eq_of_perm_of_sorted ((sortKey_perm l).trans (h.trans (sortKey_perm m).symm))
    (List.sorted_insertionSort _ l) (List.sorted_insertionSort _ m)

theorem perm_of_sortKey_eq {l m : List Int} (h : sortKey l = sortKey m) : l.Perm m :=
  (sortKey_perm l).symm.trans (h ▸ sortKey_perm m)

theorem insertionSort_eq_self_of_sorted {l : List Nat}
    (h : List.Sorted (· ≤ ·) l) : List.insertionSort (· ≤ ·) l = l :=
  List.eq_of_perm_of_sorted (List.perm_insertionSort _ l)
    (List.sorted_insertionSort _ l) h

theorem sortedNodes_sorted (G : Graph) : List.Sorted (· ≤ ·) (sortedNodes G) :=
  List.sorted_insertionSort _ _

theorem sortedNodes_nodup (G : Graph) (h : G.nodes.Nodup) : (sortedNodes G).Nodup :=
  (List.perm_insertionSort _ _).nodup_iff.mpr h

theorem clauseSat_of_perm {A : Nat → Bool} {c d : List Int} (h : c.Perm d)
    (hc : clauseSat A c = true) : clauseSat A d = true := by
  unfold clauseSat at *
  simp only [List.any_eq_true] at *
  obtain ⟨x, hx, hP⟩ := hc
  exact ⟨x, h.mem_iff.mp hx, hP⟩

theorem litSat_pos {A : Nat → Bool} {v : Nat} (h : 1 ≤ v) :
    litSat A ((v : Nat) : Int) = A v := by
  unfold litSat
  have hp : (0 : Int) < (v : Int) := by omega
  rw [if_pos hp]
  simp

theorem litSat_neg (A : Nat → Bool) (v : Nat) :
    litSat A (-((v : Nat) : Int)) = !A v := by
  unfold litSat
  rw [if_neg (by omega)]
  simp

/- Association-list lookup helpers. -/

theorem lookup_append_some {l1 l2 : List ((Nat × Nat) × Nat)} {a : Nat × Nat} {v : Nat}
    (h : l1.lookup a = some v) : (l1 ++ l2).lookup a = some v := by
  induction l1 with
  | nil => simp [List.lookup] at h
  | cons p t ih =>
    rcases p with ⟨k, b⟩
    cases hk : (a == k) with
    | false =>
      rw [List.cons_append, List.lookup, hk]
      rw [List.lookup, hk] at h
      exact ih h
    | true =>
      rw [List.cons_append, List.lookup, hk]
      rw [List.lookup, hk] at h
      exact h

theorem lookup_append_none {l1 l2 : List ((Nat × Nat) × Nat)} {a : Nat × Nat}
    (h : l1.lookup a = none) : (l1 ++ l2).lookup a = l2.lookup a := by
  induction l1 with
  | nil => simp
  | cons p t ih =>
    rcases p with ⟨k, b⟩
    cases hk : (a == k) with
    | false =>
      rw [List.cons_append, List.lookup, hk]
      rw [List.lookup, hk] at h
      exact ih h
    | true =>
      rw [List.lookup, hk] at h
      exact absurd h (by simp)

theorem lookup_none_of_keys {l : List ((Nat × Nat) × Nat)} {a : Nat × Nat}
    (h : ∀ p ∈ l, p.1 ≠ a) : l.lookup a = none := by
  induction l with
  | nil => simp
  | cons p t ih =>
    rcases p with ⟨k, b⟩
    have hk : (a == k) = false := by
      have hne := h (k, b) (by simp)
      simp only [beq_eq_false_iff_ne, ne_eq]
      intro heq
      exact hne (by simp [heq])
    rw [List.lookup, hk]
    exact ih (fun q hq => h q (by simp [hq]))

theorem lookup_map_pair_hit (i : Nat) (f : Nat → Nat) :
    ∀ (ks : List Nat) (idx : Nat), idx ∈ ks →
      ((ks.map (fun k => ((i, k), f k))).lookup (i, idx)) = some (f idx) := by
  intro ks
  induction ks with
  | nil => intro idx h; simp at h
  | cons a t ih =>
    intro idx h
    by_cases hai : a = idx
    · subst hai
      simp [List.lookup]
    · have hmem : idx ∈ t := by
        rcases List.mem_cons.mp h with h1 | h1
        · exact absurd h1.symm hai
        · exact h1
      have hk : (((i, idx) : Nat × Nat) == (i, a)) = false := by
        simp only [beq_eq_false_iff_ne, ne_eq, Prod.mk.injEq, not_and]
        intro _ hia
        exact hai hia.symm
      rw [List.map_cons, List.lookup, hk]
      exact ih idx hmem

theorem lookup_map_pair_miss {i j : Nat} (hji : j ≠ i) (f : Nat → Nat)
    (ks : List Nat) (idx : Nat) :
    ((ks.map (fun k => ((j, k), f k))).lookup (i, idx)) = none := by
  apply lookup_none_of_keys
  intro p hp
  simp only [List.mem_map] at hp
  obtain ⟨k, _, rfl⟩ := hp
  simp [hji]

theorem lookup_allocVars (chains : Nat → List (List Nat)) :
    ∀ (nodes : List Nat) (vid i idx : Nat), i ∈ nodes → idx < (chains i).length →
      (allocVars nodes chains vid).lookup (i, idx) =
        some (vid + offsetOf nodes chains i + idx) := by
  intro nodes
  induction nodes with
  | nil => intro vid i idx h; simp at h
  | cons n rest ih =>
    intro vid i idx hmem hidx
    by_cases hni : n = i
    · subst hni
      unfold allocVars offsetOf
      rw [if_pos rfl]
      apply lookup_append_some
      have : idx ∈ List.range (chains n).length := List.mem_range.mpr hidx
      simpa using lookup_map_pair_hit n (fun k => vid + k) (List.range (chains n).length) idx this
    · have hmem2 : i ∈ rest := by
        rcases List.mem_cons.mp hmem with h1 | h1
        · exact absurd h1.symm hni
        · exact h1
      unfold allocVars offsetOf
      rw [if_neg hni]
      rw [lookup_append_none (lookup_map_pair_miss hni (fun k => vid + k) _ idx)]
      rw [ih (vid + (chains n).length) i idx hmem2 hidx]
      congr 1
      omega

theorem varOf_eq {nodes : List Nat} {chains : Nat → List (List Nat)} {i idx : Nat}
    (hmem : i ∈ nodes) (hidx : idx < (chains i).length) :
    varOf nodes chains i idx = 1 + offsetOf nodes chains i + idx := by
  unfold varOf
  rw [lookup_allocVars chains nodes 1 i idx hmem hidx]
  rfl

theorem varOf_pos {nodes : List Nat} {chains : Nat → List (List Nat)} {i idx : Nat}
    (hmem : i ∈ nodes) (hidx : idx < (chains i).length) :
    1 ≤ varOf nodes chains i idx := by
  rw [varOf_eq hmem hidx]; omega

theorem finalVid_eq (chains : Nat → List (List Nat)) :
    ∀ (nodes : List Nat) (vid : Nat),
      finalVid nodes chains vid = vid + totalChains nodes chains := by
  intro nodes
  induction nodes with
  | nil => intro vid; simp [finalVid, totalChains]
  | cons n rest ih =>
    intro vid
    unfold finalVid
    rw [ih]
    simp [totalChains]
    omega

theorem numVarsOf_eq_totalChains (nodes : List Nat) (chains : Nat → List (List Nat)) :
    numVarsOf nodes chains = totalChains nodes chains := by
  unfold numVarsOf
  rw [finalVid_eq]
  omega

theorem allocVars_values (chains : Nat → List (List Nat)) :
    ∀ (nodes : List Nat) (vid : Nat),
      (allocVars nodes chains vid).map (fun e => e.2)
        = List.range' vid (totalChains nodes chains) := by
  intro nodes
  induction nodes with
  | nil => intro vid; simp [allocVars, totalChains]
  | cons n rest ih =>
    intro vid
    unfold allocVars
    rw [List.map_append, List.map_map, ih]
    have hblock : (List.range (chains n).length).map
        ((fun (e : (Nat × Nat) × Nat) => e.2) ∘ (fun idx => ((n, idx), vid + idx)))
        = List.range' vid (chains n).length := by
      simp [List.range'_eq_map_range]
    rw [hblock, List.range'_append_1]
    have : totalChains (n :: rest) chains
        = totalChains rest chains + (chains n).length := by
      simp [totalChains]; omega
    rw [this]

theorem mem_allocVars (chains : Nat → List (List Nat)) :
    ∀ (nodes : List Nat) (vid : Nat) (p : (Nat × Nat) × Nat),
      p ∈ allocVars nodes chains vid →
        p.1.1 ∈ nodes ∧ p.1.2 < (chains p.1.1).length := by
  intro nodes
  induction nodes with
  | nil => intro vid p h; simp [allocVars] at h
  | cons n rest ih =>
    intro vid p h
    unfold allocVars at h
    rcases List.mem_append.mp h with h1 | h1
    · simp only [List.mem_map, List.mem_range] at h1
      obtain ⟨idx, hidx, rfl⟩ := h1
      exact ⟨by simp, by simpa using hidx⟩
    · obtain ⟨hm, hb⟩ := ih _ p h1
      exact ⟨by simp [hm], hb⟩

theorem allocVars_keys_nodup (chains : Nat → List (List Nat)) :
    ∀ (nodes : List Nat) (vid : Nat), nodes.Nodup →
      ((allocVars nodes chains vid).map (fun e => e.1)).Nodup := by
  intro nodes
  induction nodes with
  | nil => intro vid _; simp [allocVars]
  | cons n rest ih =>
    intro vid hnd
    unfold allocVars
    rw [List.map_append, List.map_map]
    rw [List.nodup_append]
    refine ⟨?_, ih _ (List.nodup_cons.mp hnd).2, ?_⟩
    · have : ((fun (e : (Nat × Nat) × Nat) => e.1) ∘ (fun idx => ((n, idx), vid + idx)))
          = (fun idx => ((n, idx) : Nat × Nat)) := rfl
      rw [this]
      exact (List.nodup_range _).map (fun a b h => by simpa using h)
    · intro a ha hb
      simp only [List.mem_map, Function.comp, List.mem_range] at ha
      obtain ⟨idx, _, rfl⟩ := ha
      simp only [List.mem_map] at hb
      obtain ⟨p, hp, hpe⟩ := hb
      have := (mem_allocVars chains rest _ p hp).1
      have hn : p.1.1 = n := by rw [hpe]
      rw [hn] at this
      exact (List.nodup_cons.mp hnd).1 this

theorem lookup_of_mem_nodupKeys :
    ∀ (l : List ((Nat × Nat) × Nat)), ((l.map (fun e => e.1)).Nodup) →
      ∀ p ∈ l, l.lookup p.1 = some p.2 := by
  intro l
  induction l with
  | nil => intro _ p hp; simp at hp
  | cons q t ih =>
    intro hnd p hp
    have hnd2 : (q.1 ∉ t.map (fun e => e.1)) ∧ ((t.map (fun e => e.1)).Nodup) := by
      rw [List.map_cons] at hnd
      exact List.nodup_cons.mp hnd
    rcases List.mem_cons.mp hp with rfl | hpt
    · rcases p with ⟨k, v⟩
      simp [List.lookup]
    · have hk : (p.1 == q.1) = false := by
        have hpk : p.1 ∈ t.map (fun e => e.1) := List.mem_map_of_mem _ hpt
        simp only [beq_eq_false_iff_ne, ne_eq]
        intro h
        rw [h] at hpk
        exact hnd2.1 hpk
      rcases q with ⟨k, v⟩
      rw [List.lookup, hk]
      exact ih hnd2.2 p hpt

theorem varOf_of_mem_alloc {nodes : List Nat} {chains : Nat → List (List Nat)}
    (hnd : nodes.Nodup) {p : (Nat × Nat) × Nat} (hp : p ∈ allocVars nodes chains 1) :
    varOf nodes chains p.1.1 p.1.2 = p.2 := by
  unfold varOf
  rw [lookup_of_mem_nodupKeys _ (allocVars_keys_nodup chains nodes 1 hnd) p hp]
  rfl

/- combos2 and combinations membership facts. -/

theorem mem_combos2_of_sublist :
    ∀ {l : List Nat} {x y : Nat}, ([x, y]).Sublist l → (x, y) ∈ combos2 l := by
  intro l
  induction l with
  | nil => intro x y h; cases h
  | cons a t ih =>
    intro x y h
    cases h with
    | cons _ h2 =>
      unfold combos2
      exact List.mem_append.mpr (Or.inr (ih h2))
    | cons₂ _ h2 =>
      unfold combos2
      refine List.mem_append.mpr (Or.inl ?_)
      have hy : y ∈ t := List.singleton_sublist.mp h2
      exact List.mem_map.mpr ⟨y, hy, rfl⟩

theorem sublist_pair_range {a b n : Nat} (hab : a < b) (hbn : b < n) :
    ([a, b]).Sublist (List.range n) := by
  induction n with
  | zero => omega
  | succ m ih =>
    rw [List.range_succ]
    by_cases hbm : b < m
    · exact (ih hbm).trans (List.sublist_append_left _ _)
    · have hbm2 : b = m := by omega
      subst hbm2
      have h1 : ([a]).Sublist (List.range b) :=
        List.singleton_sublist.mpr (List.mem_range.mpr hab)
      exact List.Sublist.append h1 (List.Sublist.refl [b])

theorem pair_mem_combos2_or :
    ∀ {l : List Nat} {x y : Nat}, x ∈ l → y ∈ l → x ≠ y →
      (x, y) ∈ combos2 l ∨ (y, x) ∈ combos2 l := by
  intro l
  induction l with
  | nil => intro x y hx; simp at hx
  | cons a t ih =>
    intro x y hx hy hxy
    rcases List.mem_cons.mp hx with rfl | hxt
    · have hyt : y ∈ t := by
        rcases List.mem_cons.mp hy with h | h
        · exact absurd h.symm hxy
        · exact h
      left
      unfold combos2
      exact List.mem_append.mpr (Or.inl (List.mem_map.mpr ⟨y, hyt, rfl⟩))
    · rcases List.mem_cons.mp hy with rfl | hyt
      · right
        unfold combos2
        exact List.mem_append.mpr (Or.inl (List.mem_map.mpr ⟨x, hxt, rfl⟩))
      · rcases ih hxt hyt hxy with h | h
        · left; unfold combos2; exact List.mem_append.mpr (Or.inr h)
        · right; unfold combos2; exact List.mem_append.mpr (Or.inr h)

theorem combinations_spec :
    ∀ {l : List Nat} {k : Nat} {c : List Nat}, c ∈ combinations k l →
      c.Sublist l ∧ c.length = k := by
  intro l
  induction l with
  | nil =>
    intro k c h
    cases k with
    | zero =>
      simp only [combinations, List.mem_singleton] at h
      subst h
      exact ⟨List.Sublist.refl _, rfl⟩
    | succ m => simp [combinations] at h
  | cons a t ih =>
    intro k c h
    cases k with
    | zero =>
      simp only [combinations, List.mem_singleton] at h
      subst h
      exact ⟨List.nil_sublist _, rfl⟩
    | succ m =>
      unfold combinations at h
      rcases List.mem_append.mp h with h1 | h1
      · simp only [List.mem_map] at h1
        obtain ⟨s, hs, rfl⟩ := h1
        obtain ⟨hsub, hlen⟩ := ih hs
        exact ⟨List.Sublist.cons₂ a hsub, by simp [hlen]⟩
      · obtain ⟨hsub, hlen⟩ := ih h1
        exact ⟨hsub.trans (List.sublist_cons_self a t), hlen⟩

theorem idxOf_range' :
    ∀ (len base idx : Nat), idx < len →
      idxOf (List.range' base len) (base + idx) = idx := by
  intro len
  induction len with
  | zero => intro base idx h; omega
  | succ m ih =>
    intro base idx h
    rw [List.range'_succ]
    cases idx with
    | zero => simp [idxOf]
    | succ j =>
      unfold idxOf
      rw [if_neg (by omega)]
      have : base + (j + 1) = (base + 1) + j := by omega
      rw [this, ih (base + 1) j (by omega)]

/- ------------------------------------------------------------------ -/
/- The deduplicating clause store                                      -/
/- ------------------------------------------------------------------ -/

theorem geninv_init : GenInv initGenState := rfl

theorem geninv_add (st : GenState) (l : List Int) (ct : String) (h : GenInv st) :
    GenInv (add_clause st l ct) := by
  unfold add_clause
  split
  · exact h
  · unfold GenInv at *
    simp [h]

theorem geninv_fold (L : List (List Int × String)) :
    ∀ (st : GenState), GenInv st → GenInv (foldAdd st L) := by
  induction L with
  | nil => intro st h; exact h
  | cons p t ih =>
    intro st h
    unfold foldAdd
    rw [List.foldl_cons]
    exact ih _ (geninv_add st p.1 p.2 h)

theorem permMem_add (st : GenState) (l : List Int) (ct : String) {x : List Int}
    (h : PermMem st x) : PermMem (add_clause st l ct) x := by
  obtain ⟨c, hc, hperm⟩ := h
  unfold add_clause
  split
  · exact ⟨c, hc, hperm⟩
  · exact ⟨c, by simp [hc], hperm⟩

theorem permMem_fold (L : List (List Int × String)) {x : List Int} :
    ∀ (st : GenState), PermMem st x → PermMem (foldAdd st L) x := by
  induction L with
  | nil => intro st h; exact h
  | cons p t ih =>
    intro st h
    unfold foldAdd
    rw [List.foldl_cons]
    exact ih _ (permMem_add st p.1 p.2 h)

theorem permMem_add_self (st : GenState) (l : List Int) (ct : String)
    (hinv : GenInv st) : PermMem (add_clause st l ct) l := by
  unfold add_clause
  split
  · rename_i hmem
    rw [hinv] at hmem
    simp only [List.mem_map] at hmem
    obtain ⟨c, hc, hkey⟩ := hmem
    exact ⟨c, hc, perm_of_sortKey_eq hkey⟩
  · exact ⟨l, by simp, List.Perm.refl l⟩

theorem foldAdd_establishes {x : List Int} :
    ∀ (L : List (List Int × String)) (st : GenState), GenInv st →
      x ∈ L.map (fun p => p.1) → PermMem (foldAdd st L) x := by
  intro L
  induction L with
  | nil => intro st _ h; simp at h
  | cons p t ih =>
    intro st hinv hx
    rw [List.map_cons] at hx
    rcases List.mem_cons.mp hx with h1 | h1
    · unfold foldAdd
      rw [List.foldl_cons]
      subst h1
      exact permMem_fold t _ (permMem_add_self st p.1 p.2 hinv)
    · unfold foldAdd
      rw [List.foldl_cons]
      exact ih _ (geninv_add st p.1 p.2 hinv) (by simpa using h1)

theorem satAll_permMem {A : Nat → Bool} {st : GenState} {x : List Int}
    (hs : satAll A st.clauses) (hm : PermMem st x) : clauseSat A x = true := by
  obtain ⟨c, hc, hperm⟩ := hm
  exact clauseSat_of_perm hperm (hs c hc)

theorem subsetPipeline_permMem (Gl Gp : Graph) (ec : Constraints) {x : List Int}
    (h : x ∈ (subsetEmitted Gl Gp ec).map (fun p => p.1)) :
    PermMem (subsetPipeline Gl Gp ec) x :=
  foldAdd_establishes _ _ geninv_init h

theorem add_clause_clauses_mono (st : GenState) (l : List Int) (ct : String) :
    ∀ c ∈ st.clauses, c ∈ (add_clause st l ct).clauses := by
  intro c hc
  unfold add_clause
  split
  · exact hc
  · simp [hc]

/- Clause-set invariant used for duplicate freedom. -/

theorem clause_set_nodup_add (st : GenState) (l : List Int) (ct : String)
    (h : st.clause_set.Nodup) : (add_clause st l ct).clause_set.Nodup := by
  unfold add_clause
  split
  · exact h
  · rename_i hmem
    simp only [GenState.mk.injEq]
    rw [List.nodup_append]
    exact ⟨h, List.nodup_singleton _, by simpa using hmem⟩

theorem clause_set_nodup_fold (L : List (List Int × String)) :
    ∀ (st : GenState), st.clause_set.Nodup → (foldAdd st L).clause_set.Nodup := by
  induction L with
  | nil => intro st h; exact h
  | cons p t ih =>
    intro st h
    unfold foldAdd
    rw [List.foldl_cons]
    exact ih _ (clause_set_nodup_add st p.1 p.2 h)

/- ------------------------------------------------------------------ -/
/- Membership of the emitted constraint clauses                        -/
/- ------------------------------------------------------------------ -/

theorem mem_validNodes {nodes : List Nat} {chains : Nat → List (List Nat)} {i : Nat}
    (hi : i ∈ nodes) (hne : chains i ≠ []) : i ∈ validNodes nodes chains := by
  unfold validNodes
  rw [List.mem_filter]
  exact ⟨hi, by simpa using hne⟩

theorem mem_exactlyOne_atLeast (nodes : List Nat) (chains : Nat → List (List Nat))
    {i : Nat} (hi : i ∈ nodes) (hne : chains i ≠ []) :
    ((List.range (chains i).length).map (fun idx => intVar nodes chains i idx))
      ∈ (exactlyOneTyped nodes chains).map (fun p => p.1) := by
  unfold exactlyOneTyped
  rw [List.map_flatMap]
  rw [List.mem_flatMap]
  refine ⟨i, mem_validNodes hi hne, ?_⟩
  simp

theorem mem_exactlyOne_atMost (nodes : List Nat) (chains : Nat → List (List Nat))
    {i a b : Nat} (hi : i ∈ nodes) (hne : chains i ≠ [])
    (hab : a < b) (hb : b < (chains i).length) :
    [-(intVar nodes chains i a), -(intVar nodes chains i b)]
      ∈ (exactlyOneTyped nodes chains).map (fun p => p.1) := by
  unfold exactlyOneTyped
  rw [List.map_flatMap]
  rw [List.mem_flatMap]
  refine ⟨i, mem_validNodes hi hne, ?_⟩
  rw [List.map_cons, List.mem_cons]
  right
  rw [List.map_map, List.mem_map]
  exact ⟨(a, b), mem_combos2_of_sublist (sublist_pair_range hab hb), rfl⟩

theorem mem_exclusivity (nodes : List Nat) (chains : Nat → List (List Nat))
    {a b ia ib : Nat} (hab : (a, b) ∈ combos2 nodes)
    (hia : ia < (chains a).length) (hib : ib < (chains b).length)
    (hshare : sharesNode ((chains a).getD ia []) ((chains b).getD ib []) = true) :
    [-(intVar nodes chains a ia), -(intVar nodes chains b ib)]
      ∈ (exclusivityTyped nodes chains).map (fun p => p.1) := by
  unfold exclusivityTyped
  rw [List.map_flatMap, List.mem_flatMap]
  refine ⟨(a, b), hab, ?_⟩
  rw [List.map_flatMap, List.mem_flatMap]
  refine ⟨ia, List.mem_range.mpr hia, ?_⟩
  rw [List.map_flatMap, List.mem_flatMap]
  refine ⟨ib, List.mem_range.mpr hib, ?_⟩
  rw [if_pos hshare]
  simp

theorem mem_edgeClause {Gl Gp : Graph} (nodes : List Nat)
    (chains : Nat → List (List Nat)) {e : Nat × Nat} {ii jj : Nat}
    (he : e ∈ Gl.edges) (hii : ii < (chains e.1).length) (hjj : jj < (chains e.2).length)
    (hno : anyEdge Gp ((chains e.1).getD ii []) ((chains e.2).getD jj []) = false) :
    [-(intVar nodes chains e.1 ii), -(intVar nodes chains e.2 jj)]
      ∈ (edgeTyped Gl Gp nodes chains).map (fun p => p.1) := by
  unfold edgeTyped
  rw [List.map_flatMap, List.mem_flatMap]
  refine ⟨e, he, ?_⟩
  rw [List.map_flatMap, List.mem_flatMap]
  refine ⟨ii, List.mem_range.mpr hii, ?_⟩
  rw [List.map_flatMap, List.mem_flatMap]
  refine ⟨jj, List.mem_range.mpr hjj, ?_⟩
  have hcond : ¬(anyEdge Gp ((chains e.1).getD ii []) ((chains e.2).getD jj []) = true) := by
    rw [hno]; simp
  rw [if_neg hcond]
  simp

theorem mem_subsetEmitted_exactlyOne {Gl Gp : Graph} {ec : Constraints} {x : List Int}
    (h : x ∈ (exactlyOneTyped (sortedNodes Gl) (subsetChainsFor Gp ec)).map
      (fun p => p.1)) :
    x ∈ (subsetEmitted Gl Gp ec).map (fun p => p.1) := by
  unfold subsetEmitted
  simp only [List.map_append, List.mem_append]
  exact Or.inl (Or.inl (Or.inr h))

theorem mem_subsetEmitted_exclusivity {Gl Gp : Graph} {ec : Constraints} {x : List Int}
    (h : x ∈ (exclusivityTyped (sortedNodes Gl) (subsetChainsFor Gp ec)).map
      (fun p => p.1)) :
    x ∈ (subsetEmitted Gl Gp ec).map (fun p => p.1) := by
  unfold subsetEmitted
  simp only [List.map_append, List.mem_append]
  exact Or.inl (Or.inr h)

theorem mem_subsetEmitted_edge {Gl Gp : Graph} {ec : Constraints} {x : List Int}
    (h : x ∈ (edgeTyped Gl Gp (sortedNodes Gl) (subsetChainsFor Gp ec)).map
      (fun p => p.1)) :
    x ∈ (subsetEmitted Gl Gp ec).map (fun p => p.1) := by
  unfold subsetEmitted
  simp only [List.map_append, List.mem_append]
  exact Or.inr h

theorem contains_of_mem {a : Nat} {l : List Nat} (h : a ∈ l) : l.contains a = true := by
  simpa using h

theorem clauseSat_pair {A : Nat → Bool} {x y : Int} :
    clauseSat A [x, y] = (litSat A x || litSat A y) := by
  simp [clauseSat]

/-- Claim C1: every satisfying assignment of the clause set produced by the
default subset-mode pipeline (fixed mappings, exactly-one-chain, chain
exclusivity, edge consistency) selects exactly one chain variable per logical
node, the selected chains of distinct logical nodes are disjoint in physical
nodes, and every logical edge is realized by at least one physical edge
between the selected chains. -/
theorem C1_default_pipeline_soundness (Gl Gp : Graph) (ec : Constraints)
    (A : Nat → Bool)
    (hne : ∀ i ∈ sortedNodes Gl, subsetChainsFor Gp ec i ≠ [])
    (hsat : satAll A (subsetPipeline Gl Gp ec).clauses) :
    (∀ i ∈ sortedNodes Gl, ∃ idx,
      idx < (subsetChainsFor Gp ec i).length ∧
      A (varOf (sortedNodes Gl) (subsetChainsFor Gp ec) i idx) = true ∧
      ∀ idx2, idx2 < (subsetChainsFor Gp ec i).length →
        A (varOf (sortedNodes Gl) (subsetChainsFor Gp ec) i idx2) = true → idx2 = idx)
    ∧ (∀ i ∈ sortedNodes Gl, ∀ j ∈ sortedNodes Gl, i ≠ j →
        ∀ ii jj, ii < (subsetChainsFor Gp ec i).length →
          jj < (subsetChainsFor Gp ec j).length →
          A (varOf (sortedNodes Gl) (subsetChainsFor Gp ec) i ii) = true →
          A (varOf (sortedNodes Gl) (subsetChainsFor Gp ec) j jj) = true →
          ∀ p ∈ (subsetChainsFor Gp ec i).getD ii [],
            p ∉ (subsetChainsFor Gp ec j).getD jj [])
    ∧ (∀ e ∈ Gl.edges, ∀ ii jj,
        ii < (subsetChainsFor Gp ec e.1).length →
        jj < (subsetChainsFor Gp ec e.2).length →
        A (varOf (sortedNodes Gl) (subsetChainsFor Gp ec) e.1 ii) = true →
        A (varOf (sortedNodes Gl) (subsetChainsFor Gp ec) e.2 jj) = true →
        anyEdge Gp ((subsetChainsFor Gp ec e.1).getD ii [])
          ((subsetChainsFor Gp ec e.2).getD jj []) = true) := by
  have hgoal : ∀ x ∈ (subsetEmitted Gl Gp ec).map (fun p => p.1),
      clauseSat A x = true := by
    intro x hx
    exact satAll_permMem hsat (subsetPipeline_permMem Gl Gp ec hx)
  have hatmost : ∀ i ∈ sortedNodes Gl, ∀ a b : Nat, a < b →
      b < (subsetChainsFor Gp ec i).length →
      ¬(A (varOf (sortedNodes Gl) (subsetChainsFor Gp ec) i a) = true ∧
        A (varOf (sortedNodes Gl) (subsetChainsFor Gp ec) i b) = true) := by
    intro i hi a b hab hb ⟨hAa, hAb⟩
    have hmem := mem_subsetEmitted_exactlyOne
      (mem_exactlyOne_atMost (sortedNodes Gl) (subsetChainsFor Gp ec) hi (hne i hi) hab hb)
    have hcs := hgoal _ hmem
    rw [clauseSat_pair] at hcs
    simp only [intVar] at hcs
    rw [litSat_neg, litSat_neg, hAa, hAb] at hcs
    simp at hcs
  refine ⟨?_, ?_, ?_⟩
  · intro i hi
    have hmem := mem_subsetEmitted_exactlyOne
      (mem_exactlyOne_atLeast (sortedNodes Gl) (subsetChainsFor Gp ec) hi (hne i hi))
    have hcs := hgoal _ hmem
    unfold clauseSat at hcs
    rw [List.any_eq_true] at hcs
    obtain ⟨lit, hlitmem, hlit⟩ := hcs
    rw [List.mem_map] at hlitmem
    obtain ⟨idx, hidxr, rfl⟩ := hlitmem
    have hidx : idx < (subsetChainsFor Gp ec i).length := List.mem_range.mp hidxr
    simp only [intVar] at hlit
    rw [litSat_pos (varOf_pos hi hidx)] at hlit
    refine ⟨idx, hidx, hlit, ?_⟩
    intro idx2 hidx2 hA2
    by_contra hne2
    rcases Nat.lt_or_ge idx2 idx with hlt | hge
    · exact hatmost i hi idx2 idx hlt hidx ⟨hA2, hlit⟩
    · have hlt2 : idx < idx2 := by omega
      exact hatmost i hi idx idx2 hlt2 hidx2 ⟨hlit, hA2⟩
  · intro i hi j hj hij ii jj hii hjj hAi hAj p hpi hpj
    have hshare1 : sharesNode ((subsetChainsFor Gp ec i).getD ii [])
        ((subsetChainsFor Gp ec j).getD jj []) = true := by
      unfold sharesNode
      rw [List.any_eq_true]
      exact ⟨p, hpi, contains_of_mem hpj⟩
    have hshare2 : sharesNode ((subsetChainsFor Gp ec j).getD jj [])
        ((subsetChainsFor Gp ec i).getD ii []) = true := by
      unfold sharesNode
      rw [List.any_eq_true]
      exact ⟨p, hpj, contains_of_mem hpi⟩
    rcases pair_mem_combos2_or hi hj hij with hc | hc
    · have hmem := mem_subsetEmitted_exclusivity
        (mem_exclusivity (sortedNodes Gl) (subsetChainsFor Gp ec) hc hii hjj hshare1)
      have hcs := hgoal _ hmem
      rw [clauseSat_pair] at hcs
      simp only [intVar] at hcs
      rw [litSat_neg, litSat_neg, hAi, hAj] at hcs
      simp at hcs
    · have hmem := mem_subsetEmitted_exclusivity
        (mem_exclusivity (sortedNodes Gl) (subsetChainsFor Gp ec) hc hjj hii hshare2)
      have hcs := hgoal _ hmem
      rw [clauseSat_pair] at hcs
      simp only [intVar] at hcs
      rw [litSat_neg, litSat_neg, hAi, hAj] at hcs
      simp at hcs
  · intro e he ii jj hii hjj hAi hAj
    by_contra hno
    have hno2 : anyEdge Gp ((subsetChainsFor Gp ec e.1).getD ii [])
        ((subsetChainsFor Gp ec e.2).getD jj []) = false := by
      rcases hb : anyEdge Gp ((subsetChainsFor Gp ec e.1).getD ii [])
          ((subsetChainsFor Gp ec e.2).getD jj []) with _ | _
      · rfl
      · exact absurd hb hno
    have hmem := mem_subsetEmitted_edge
      (mem_edgeClause (sortedNodes Gl) (subsetChainsFor Gp ec) he hii hjj hno2)
    have hcs := hgoal _ hmem
    rw [clauseSat_pair] at hcs
    simp only [intVar] at hcs
    rw [litSat_neg, litSat_neg, hAi, hAj] at hcs
    simp at hcs

/-- Witness for C1: the logical edge 0-1 embedded into the physical edge 0-1
with singleton chains; the assignment choosing chain (0,) for node 0 and
chain (1,) for node 1 satisfies the generated clause set, and the soundness
conclusions hold for it. -/
theorem C1_default_pipeline_soundness_witness :
    (∀ i ∈ sortedNodes ⟨[0, 1], [(0, 1)]⟩,
      subsetChainsFor ⟨[0, 1], [(0, 1)]⟩ ⟨[1], [], [], none⟩ i ≠ []) ∧
    satAll (fun v => v == 1 || v == 4)
      (subsetPipeline ⟨[0, 1], [(0, 1)]⟩ ⟨[0, 1], [(0, 1)]⟩ ⟨[1], [], [], none⟩).clauses ∧
    (∀ e ∈ (Graph.mk [0, 1] [(0, 1)]).edges, ∀ ii jj,
        ii < (subsetChainsFor ⟨[0, 1], [(0, 1)]⟩ ⟨[1], [], [], none⟩ e.1).length →
        jj < (subsetChainsFor ⟨[0, 1], [(0, 1)]⟩ ⟨[1], [], [], none⟩ e.2).length →
        (fun v => v == 1 || v == 4)
          (varOf (sortedNodes ⟨[0, 1], [(0, 1)]⟩)
            (subsetChainsFor ⟨[0, 1], [(0, 1)]⟩ ⟨[1], [], [], none⟩) e.1 ii) = true →
        (fun v => v == 1 || v == 4)
          (varOf (sortedNodes ⟨[0, 1], [(0, 1)]⟩)
            (subsetChainsFor ⟨[0, 1], [(0, 1)]⟩ ⟨[1], [], [], none⟩) e.2 jj) = true →
        anyEdge ⟨[0, 1], [(0, 1)]⟩
          ((subsetChainsFor ⟨[0, 1], [(0, 1)]⟩ ⟨[1], [], [], none⟩ e.1).getD ii [])
          ((subsetChainsFor ⟨[0, 1], [(0, 1)]⟩ ⟨[1], [], [], none⟩ e.2).getD jj [])
          = true) := by
  refine ⟨by decide, by unfold satAll; decide, ?_⟩
  exact (C1_default_pipeline_soundness ⟨[0, 1], [(0, 1)]⟩ ⟨[0, 1], [(0, 1)]⟩
    ⟨[1], [], [], none⟩ (fun v => v == 1 || v == 4) (by decide)
    (by unfold satAll; decide)).2.2

/-- Claim C2: after add_blocking_clause_from_model appends the disjunction of
the negations of the model's true chain variables, every satisfying
assignment of the updated clause set falsifies at least one chain variable
that the blocked model had set true — so the chosen chain of at least one
logical node differs from the blocked selection. -/
theorem C2_blocking_clause_excludes (Gl Gp : Graph) (ec : Constraints)
    (model : List Int) (A : Nat → Bool) (hnl : Gl.nodes.Nodup)
    (hactive : activeChainVars
      (chainVarValues (sortedNodes Gl) (subsetChainsFor Gp ec)) model ≠ [])
    (hsat : satAll A ((add_blocking_clause_from_model (subsetPipeline Gl Gp ec)
        (chainVarValues (sortedNodes Gl) (subsetChainsFor Gp ec)) model).1).clauses) :
    ∃ i idx, i ∈ sortedNodes Gl ∧ idx < (subsetChainsFor Gp ec i).length ∧
      ((varOf (sortedNodes Gl) (subsetChainsFor Gp ec) i idx : Int) ∈ model) ∧
      A (varOf (sortedNodes Gl) (subsetChainsFor Gp ec) i idx) = false := by
  have hinv : GenInv (subsetPipeline Gl Gp ec) :=
    geninv_fold _ _ geninv_init
  have hempty : (activeChainVars
      (chainVarValues (sortedNodes Gl) (subsetChainsFor Gp ec)) model).isEmpty
        = false := by
    rcases hb : (activeChainVars
        (chainVarValues (sortedNodes Gl) (subsetChainsFor Gp ec)) model) with _ | _
    · exact absurd hb hactive
    · simp [List.isEmpty]
  rw [add_blocking_clause_from_model, if_neg (by simp [hempty])] at hsat
  have hmem : PermMem (add_clause (subsetPipeline Gl Gp ec)
      (blockingClauseOf (chainVarValues (sortedNodes Gl) (subsetChainsFor Gp ec)) model)
      "blocking")
      (blockingClauseOf (chainVarValues (sortedNodes Gl) (subsetChainsFor Gp ec)) model) :=
    permMem_add_self _ _ _ hinv
  have hcs := satAll_permMem hsat hmem
  unfold blockingClauseOf clauseSat at hcs
  rw [List.any_eq_true] at hcs
  obtain ⟨lit, hlitmem, hlit⟩ := hcs
  rw [List.mem_map] at hlitmem
  obtain ⟨l, hl, rfl⟩ := hlitmem
  unfold activeChainVars at hl
  rw [List.mem_filter] at hl
  obtain ⟨hlmodel, hlpred⟩ := hl
  have hlpos : 0 < l := by
    have := (Bool.and_eq_true _ _).mp hlpred
    exact of_decide_eq_true this.1
  have hlval : l.toNat ∈ chainVarValues (sortedNodes Gl) (subsetChainsFor Gp ec) := by
    have := (Bool.and_eq_true _ _).mp hlpred
    simpa using this.2
  unfold chainVarValues at hlval
  rw [List.mem_map] at hlval
  obtain ⟨p, hp, hpv⟩ := hlval
  obtain ⟨hpm, hpb⟩ := mem_allocVars _ _ _ p hp
  have hvar : varOf (sortedNodes Gl) (subsetChainsFor Gp ec) p.1.1 p.1.2 = l.toNat := by
    rw [varOf_of_mem_alloc (sortedNodes_nodup Gl hnl) hp, hpv]
  have hlcast : ((l.toNat : Nat) : Int) = l := Int.toNat_of_nonneg (by omega)
  refine ⟨p.1.1, p.1.2, hpm, hpb, ?_, ?_⟩
  · rw [hvar, hlcast]
    exact hlmodel
  · have hlit2 : litSat A (-((l.toNat : Nat) : Int)) = true := by
      rw [hlcast]; exact hlit
    rw [litSat_neg] at hlit2
    rw [hvar]
    simpa using hlit2

/-- Witness for C2: one logical node, two candidate singleton chains; the
model selecting chain (0,) is blocked, and the assignment selecting chain
(1,) satisfies the updated clause set and indeed differs at that node. -/
theorem C2_blocking_clause_excludes_witness :
    (⟨[0], []⟩ : Graph).nodes.Nodup ∧
    activeChainVars (chainVarValues (sortedNodes ⟨[0], []⟩)
      (subsetChainsFor ⟨[0, 1], []⟩ ⟨[1], [], [], none⟩)) [1, -2] ≠ [] ∧
    (∃ i idx, i ∈ sortedNodes ⟨[0], []⟩ ∧
      idx < (subsetChainsFor ⟨[0, 1], []⟩ ⟨[1], [], [], none⟩ i).length ∧
      ((varOf (sortedNodes ⟨[0], []⟩)
        (subsetChainsFor ⟨[0, 1], []⟩ ⟨[1], [], [], none⟩) i idx : Int) ∈ [1, -2]) ∧
      (fun v => v == 2) (varOf (sortedNodes ⟨[0], []⟩)
        (subsetChainsFor ⟨[0, 1], []⟩ ⟨[1], [], [], none⟩) i idx) = false) := by
  refine ⟨by decide, by decide, ?_⟩
  exact C2_blocking_clause_excludes ⟨[0], []⟩ ⟨[0, 1], []⟩ ⟨[1], [], [], none⟩
    [1, -2] (fun v => v == 2) (by decide) (by decide) (by unfold satAll; decide)

/-- Counterexample for C3: when the worker is still alive at the deadline,
solve_dimacs_file does not return status TIMEOUT — the status it returns is
the string ERROR. -/
theorem C3_timeout_status_counterexample :
    (solve_dimacs_result 5 true WorkerReport.stillRunning).status ≠ "TIMEOUT" ∧
    (solve_dimacs_result 5 true WorkerReport.stillRunning).status = "ERROR" := by
  refine ⟨?_, rfl⟩
  decide

/-- Amended C3: when the deadline elapses before the worker finishes, the
adapter returns status ERROR (never SAT, never UNSAT) with the error string
"Timeout expired" and no model; a worker internal fault also yields status
ERROR, so the two cases are distinguished only by the error message, not by
the status. -/
theorem C3_timeout_returns_error (numVars : Nat) (hasCnfGen : Bool) :
    (solve_dimacs_result numVars hasCnfGen WorkerReport.stillRunning).status = "ERROR"
    ∧ (solve_dimacs_result numVars hasCnfGen WorkerReport.stillRunning).status ≠ "SAT"
    ∧ (solve_dimacs_result numVars hasCnfGen WorkerReport.stillRunning).status ≠ "UNSAT"
    ∧ (solve_dimacs_result numVars hasCnfGen WorkerReport.stillRunning).model = none
    ∧ (solve_dimacs_result numVars hasCnfGen WorkerReport.stillRunning).error
        = some "Timeout expired"
    ∧ ∀ msg : String,
        (solve_dimacs_result numVars hasCnfGen
          (WorkerReport.finished false none none (some msg))).status = "ERROR" := by
  refine ⟨rfl, show ("ERROR" : String) ≠ "SAT" by decide,
    show ("ERROR" : String) ≠ "UNSAT" by decide, rfl, rfl, fun msg => rfl⟩

/-- Claim C4 (failing input): logical graph on nodes 0,1 with edge (0,1),
physical graph of two isolated nodes, per_node size 2 for logical node 0.
Chain generation marks the problem not embeddable and records a reject
reason, yet the generate() pipeline still runs the encoders (the exactly-one
clauses of node 1 are emitted), because generate() consults the embeddable
flag as it stood on entry (True from the constructor) rather than the flag
set during chain generation. -/
theorem C4_infeasible_still_encodes :
    subsetEmbeddableAfterGen ⟨[0, 1], [(0, 1)]⟩ ⟨[0, 1], []⟩
      ⟨[1], [(0, [2])], [], none⟩ = false
    ∧ subsetRejectReasons ⟨[0, 1], [(0, 1)]⟩ ⟨[0, 1], []⟩
        ⟨[1], [(0, [2])], [], none⟩ ≠ []
    ∧ (subsetGenerate ⟨[0, 1], [(0, 1)]⟩ ⟨[0, 1], []⟩
        ⟨[1], [(0, [2])], [], none⟩ true).clauses ≠ [] := by
  refine ⟨by decide, by decide, by decide⟩

/-- Claim C7: the allocator assigns ids in one deterministic pass; the ids
form exactly the contiguous range [1, num_vars], distinct (node, chain-index)
pairs receive distinct ids, every id lies in [1, num_vars], and num_vars
equals the total number of candidate chains over all logical nodes. -/
theorem C7_variable_allocation (nodes : List Nat) (chains : Nat → List (List Nat))
    (hnd : nodes.Nodup) :
    ((allocVars nodes chains 1).map (fun e => e.2)
      = List.range' 1 (totalChains nodes chains))
    ∧ ((allocVars nodes chains 1).map (fun e => e.1)).Nodup
    ∧ numVarsOf nodes chains = totalChains nodes chains
    ∧ (∀ p ∈ allocVars nodes chains 1, ∀ q ∈ allocVars nodes chains 1,
        p.1 ≠ q.1 → p.2 ≠ q.2)
    ∧ (∀ p ∈ allocVars nodes chains 1,
        1 ≤ p.2 ∧ p.2 ≤ numVarsOf nodes chains) := by
  have hvals := allocVars_values chains nodes 1
  have hkeys := allocVars_keys_nodup chains nodes 1 hnd
  have hsndnd : ((allocVars nodes chains 1).map (fun e => e.2)).Nodup := by
    rw [hvals]
    exact List.nodup_range' _ _
  refine ⟨hvals, hkeys, numVarsOf_eq_totalChains nodes chains, ?_, ?_⟩
  · intro p hp q hq hne heq
    have hpq : p = q := List.inj_on_of_nodup_map hsndnd hp hq heq
    rw [hpq] at hne
    exact hne rfl
  · intro p hp
    have hmem : p.2 ∈ (allocVars nodes chains 1).map (fun e => e.2) :=
      List.mem_map_of_mem _ hp
    rw [hvals] at hmem
    have := List.mem_range'_1.mp hmem
    rw [numVarsOf_eq_totalChains]
    omega

/-- Witness for C7: a three-node allocation with chain counts 2, 0, 3. -/
theorem C7_variable_allocation_witness :
    ([0, 2, 5] : List Nat).Nodup ∧
    ((allocVars [0, 2, 5]
        (fun i => if i = 0 then [[0], [1]] else if i = 2 then [] else [[2], [3], [0, 1]]) 1).map
      (fun e => e.2)
      = List.range' 1 (totalChains [0, 2, 5]
          (fun i => if i = 0 then [[0], [1]] else if i = 2 then [] else [[2], [3], [0, 1]])))
    ∧ numVarsOf [0, 2, 5]
        (fun i => if i = 0 then [[0], [1]] else if i = 2 then [] else [[2], [3], [0, 1]])
      = totalChains [0, 2, 5]
        (fun i => if i = 0 then [[0], [1]] else if i = 2 then [] else [[2], [3], [0, 1]]) := by
  refine ⟨by decide, ?_⟩
  have h := C7_variable_allocation [0, 2, 5]
    (fun i => if i = 0 then [[0], [1]] else if i = 2 then [] else [[2], [3], [0, 1]])
    (by decide)
  exact ⟨h.1, h.2.2.1⟩

theorem foldBlocking_invariant (values : List Nat) :
    ∀ (models : List (List Int)) (s : List (List Int) × DimacsFile) (pre : List (List Int)),
      s.2.header_clauses = s.2.clause_lines.length →
      (∃ r0, s.2.clause_lines = pre ++ r0) →
      (foldBlocking values s models).2.header_clauses
        = (foldBlocking values s models).2.clause_lines.length
      ∧ ∃ rest, (foldBlocking values s models).2.clause_lines = pre ++ rest := by
  intro models
  induction models with
  | nil => intro s pre h1 h2; exact ⟨h1, h2⟩
  | cons m t ih =>
    intro s pre h1 h2
    obtain ⟨r0, hr0⟩ := h2
    unfold foldBlocking
    rw [List.foldl_cons]
    have hstep :
        ((add_blocking_with_file s.1 s.2 values m).1,
          (add_blocking_with_file s.1 s.2 values m).2.1).2.header_clauses
        = ((add_blocking_with_file s.1 s.2 values m).1,
            (add_blocking_with_file s.1 s.2 values m).2.1).2.clause_lines.length
        ∧ ∃ r1, ((add_blocking_with_file s.1 s.2 values m).1,
            (add_blocking_with_file s.1 s.2 values m).2.1).2.clause_lines
          = pre ++ r1 := by
      unfold add_blocking_with_file
      split
      · exact ⟨h1, ⟨r0, hr0⟩⟩
      · refine ⟨?_, ⟨r0 ++ [blockingClauseOf values m], ?_⟩⟩
        · simp [appendClauseToFile, h1]
        · simp [appendClauseToFile, hr0]
    exact ih _ pre hstep.1 hstep.2

/-- Claim C8: the incremental append adds the blocking clause to the
in-memory clause list and appends exactly one clause line to the persisted
file, bumping only the header clause count; across any sequence of appends
starting from a full write, the header clause count always equals the number
of clause lines present and all prior clause lines are preserved unchanged
as a prefix. -/
theorem C8_incremental_append (numVars : Nat) (cls0 : List (List Int))
    (values : List Nat) (cls : List (List Int)) (f : DimacsFile) (model : List Int)
    (hinv : f.header_clauses = f.clause_lines.length) :
    ((add_blocking_with_file cls f values model).2.1.header_vars = f.header_vars
    ∧ (add_blocking_with_file cls f values model).2.1.header_clauses
        = (add_blocking_with_file cls f values model).2.1.clause_lines.length
    ∧ (∃ rest, (add_blocking_with_file cls f values model).2.1.clause_lines
        = f.clause_lines ++ rest)
    ∧ ((add_blocking_with_file cls f values model).2.2 = true →
        (add_blocking_with_file cls f values model).1
          = cls ++ [blockingClauseOf values model]
        ∧ (add_blocking_with_file cls f values model).2.1.clause_lines
          = f.clause_lines ++ [blockingClauseOf values model]
        ∧ (add_blocking_with_file cls f values model).2.1.header_clauses
          = f.header_clauses + 1)
    ∧ ((add_blocking_with_file cls f values model).2.2 = false →
        (add_blocking_with_file cls f values model) = (cls, f, false)))
    ∧ ∀ models : List (List Int),
        (foldBlocking values (cls0, write_dimacs numVars cls0) models).2.header_clauses
          = (foldBlocking values (cls0, write_dimacs numVars cls0)
              models).2.clause_lines.length
        ∧ ∃ rest, (foldBlocking values (cls0, write_dimacs numVars cls0)
            models).2.clause_lines = cls0 ++ rest := by
  constructor
  · unfold add_blocking_with_file
    split
    · refine ⟨rfl, hinv, ⟨[], by simp⟩, ?_, ?_⟩
      · intro h
        simp at h
      · intro _
        rfl
    · refine ⟨rfl, ?_, ⟨[blockingClauseOf values model], rfl⟩, ?_, ?_⟩
      · simp [appendClauseToFile, hinv]
      · intro _
        exact ⟨rfl, rfl, rfl⟩
      · intro h
        simp at h
  · intro models
    exact foldBlocking_invariant values models (cls0, write_dimacs numVars cls0) cls0
      rfl ⟨[], by simp [write_dimacs]⟩

/-- Witness for C8: appending two blocking clauses derived from two models to
a freshly written two-clause file keeps the header count equal to the number
of clause lines and preserves the original lines as a prefix. -/
theorem C8_incremental_append_witness :
    ((write_dimacs 2 [[1, 2], [-1, -2]]).header_clauses
      = (write_dimacs 2 [[1, 2], [-1, -2]]).clause_lines.length)
    ∧ ((add_blocking_with_file [[1, 2], [-1, -2]] (write_dimacs 2 [[1, 2], [-1, -2]])
        [1, 2] [1, -2]).2.1.header_clauses
      = (add_blocking_with_file [[1, 2], [-1, -2]] (write_dimacs 2 [[1, 2], [-1, -2]])
          [1, 2] [1, -2]).2.1.clause_lines.length)
    ∧ (∃ rest, (foldBlocking [1, 2] ([[1, 2], [-1, -2]], write_dimacs 2 [[1, 2], [-1, -2]])
        [[1, -2], [-1, 2]]).2.clause_lines = [[1, 2], [-1, -2]] ++ rest) := by
  have h := C8_incremental_append 2 [[1, 2], [-1, -2]] [1, 2] [[1, 2], [-1, -2]]
    (write_dimacs 2 [[1, 2], [-1, -2]]) [1, -2] (by decide)
  exact ⟨by decide, h.1.2.1, (h.2 [[1, -2], [-1, 2]]).2⟩

/-- Claim C9: wrapping every clause with a fresh auxiliary literal greater
than num_vars and asserting all auxiliary literals as assumptions yields an
instance that is satisfiable exactly when the original clause set is; the
indirection never changes satisfiability. -/
theorem C9_aux_wrapping_equisat (numVars : Nat) (cls : List (List Int))
    (hbound : ∀ c ∈ cls, ∀ l ∈ c, l ≠ 0 ∧ l.natAbs ≤ numVars) :
    ((∃ A : Nat → Bool, satAll A (wrapClauses numVars cls)
        ∧ ∀ a ∈ assumptionLits numVars cls, A a = true)
      ↔ (∃ A : Nat → Bool, satAll A cls))
    ∧ ∀ a ∈ assumptionLits numVars cls, numVars < a := by
  constructor
  · constructor
    · rintro ⟨A, hsat, hassume⟩
      refine ⟨A, ?_⟩
      intro c hc
      rw [List.mem_iff_getElem] at hc
      obtain ⟨idx, hidx, hget⟩ := hc
      have hwrap : ((-((numVars + idx + 1 : Nat) : Int)) :: cls.getD idx [])
          ∈ wrapClauses numVars cls := by
        unfold wrapClauses
        exact List.mem_map.mpr ⟨idx, List.mem_range.mpr hidx, rfl⟩
      have hcs := hsat _ hwrap
      unfold clauseSat at hcs
      rw [List.any_cons] at hcs
      have haux : A (numVars + idx + 1) = true := by
        apply hassume
        unfold assumptionLits
        exact List.mem_map.mpr ⟨idx, List.mem_range.mpr hidx, rfl⟩
      rw [litSat_neg, haux] at hcs
      simp only [Bool.not_true, Bool.false_or] at hcs
      have hgd : cls.getD idx [] = c := by
        rw [List.getD_eq_getElem _ _ hidx, hget]
      rw [hgd] at hcs
      exact hcs
    · rintro ⟨A, hsat⟩
      refine ⟨fun v => if v ≤ numVars then A v else true, ?_, ?_⟩
      · intro c hc
        unfold wrapClauses at hc
        rw [List.mem_map] at hc
        obtain ⟨idx, hidxr, rfl⟩ := hc
        have hidx : idx < cls.length := List.mem_range.mp hidxr
        have hcmem : cls.getD idx [] ∈ cls := by
          rw [List.getD_eq_getElem _ _ hidx]
          exact List.getElem_mem hidx
        have hcs := hsat _ hcmem
        unfold clauseSat at hcs ⊢
        rw [List.any_eq_true] at hcs
        obtain ⟨l, hl, hls⟩ := hcs
        rw [List.any_cons]
        have hlsame : litSat (fun v => if v ≤ numVars then A v else true) l
            = litSat A l := by
          obtain ⟨hl0, hlb⟩ := hbound _ hcmem l hl
          unfold litSat
          by_cases hpos : (0 : Int) < l
          · rw [if_pos hpos, if_pos hpos]
            have hle : l.toNat ≤ numVars := by omega
            show (if l.toNat ≤ numVars then A l.toNat else true) = A l.toNat
            rw [if_pos hle]
          · rw [if_neg hpos, if_neg hpos]
            have hle : (-l).toNat ≤ numVars := by omega
            show (!(if (-l).toNat ≤ numVars then A (-l).toNat else true))
              = !A (-l).toNat
            rw [if_pos hle]
        have : ((-((numVars + idx + 1 : Nat) :
            Int)) :: cls.getD idx []).any
              (fun x => litSat (fun v => if v ≤ numVars then A v else true) x)
            = true := by
          rw [List.any_cons]
          refine Or.inr ?_ |> Bool.or_eq_true_iff.mpr
          rw [List.any_eq_true]
          exact ⟨l, hl, by rw [hlsame]; exact hls⟩
        exact this
      · intro a ha
        unfold assumptionLits at ha
        rw [List.mem_map] at ha
        obtain ⟨idx, _, rfl⟩ := ha
        show (if numVars + idx + 1 ≤ numVars then A (numVars + idx + 1) else true) = true
        rw [if_neg (by omega)]
  · intro a ha
    unfold assumptionLits at ha
    rw [List.mem_map] at ha
    obtain ⟨idx, _, rfl⟩ := ha
    omega

/-- Witness for C9: a one-clause instance within the variable bound. -/
theorem C9_aux_wrapping_equisat_witness :
    (∀ c ∈ [[(1 : Int)]], ∀ l ∈ c, l ≠ 0 ∧ l.natAbs ≤ 1) ∧
    ((∃ A : Nat → Bool, satAll A (wrapClauses 1 [[(1 : Int)]])
        ∧ ∀ a ∈ assumptionLits 1 [[(1 : Int)]], A a = true)
      ↔ (∃ A : Nat → Bool, satAll A [[(1 : Int)]])) := by
  refine ⟨by decide, ?_⟩
  exact (C9_aux_wrapping_equisat 1 [[(1 : Int)]] (by decide)).1

/-- Claim C10: in the subset-mode generator, add_clause is idempotent up to
literal order — re-adding any permutation of an already stored clause leaves
the whole state (clauses and clause_type included) unchanged — and therefore
no two stored clauses are equal as sorted literal tuples, in any state
reachable from the initial one. -/
theorem C10_add_clause_idempotent (calls : List (List Int × String))
    (lits litsPerm : List Int) (ct : String)
    (hmem : lits ∈ (foldAdd initGenState calls).clauses)
    (hperm : litsPerm.Perm lits) :
    add_clause (foldAdd initGenState calls) litsPerm ct = foldAdd initGenState calls
    ∧ List.Pairwise (fun c d => sortKey c ≠ sortKey d)
        (foldAdd initGenState calls).clauses := by
  have hinv : GenInv (foldAdd initGenState calls) :=
    geninv_fold _ _ geninv_init
  have hnd : (foldAdd initGenState calls).clause_set.Nodup :=
    clause_set_nodup_fold _ _ (List.nodup_nil)
  constructor
  · have hkey : sortKey litsPerm ∈ (foldAdd initGenState calls).clause_set := by
      rw [hinv]
      rw [sortKey_eq_of_perm hperm]
      exact List.mem_map_of_mem _ hmem
    unfold add_clause
    rw [if_pos hkey]
  · have : ((foldAdd initGenState calls).clauses.map sortKey).Nodup := by
      rw [← hinv]
      exact hnd
    rw [List.Nodup, List.pairwise_map] at this
    exact this

/-- Witness for C10: after adding [1,2] and the permutation [2,1] (skipped by
deduplication), re-adding [2,1] leaves the state unchanged. -/
theorem C10_add_clause_idempotent_witness :
    ([1, 2] ∈ (foldAdd initGenState [([1, 2], "a"), ([2, 1], "b")]).clauses)
    ∧ (([2, 1] : List Int).Perm [1, 2])
    ∧ add_clause (foldAdd initGenState [([1, 2], "a"), ([2, 1], "b")]) [2, 1] "c"
        = foldAdd initGenState [([1, 2], "a"), ([2, 1], "b")] := by
  refine ⟨by decide, by decide, ?_⟩
  exact (C10_add_clause_idempotent [([1, 2], "a"), ([2, 1], "b")] [1, 2] [2, 1] "c"
    (by decide) (by decide)).1

/- ------------------------------------------------------------------ -/
/- The max_total_qubits cardinality encoding                           -/
/- ------------------------------------------------------------------ -/

theorem mem_productList_map (f : Nat → Nat) (gs : Nat → List Nat) :
    ∀ (l : List Nat), (∀ x ∈ l, f x ∈ gs x) → (l.map f) ∈ productList (l.map gs) := by
  intro l
  induction l with
  | nil => intro _; simp [productList]
  | cons a t ih =>
    intro h
    rw [List.map_cons, List.map_cons]
    unfold productList
    rw [List.mem_flatMap]
    refine ⟨f a, h a (by simp), ?_⟩
    rw [List.mem_map]
    exact ⟨t.map f, ih (fun x hx => h x (by simp [hx])), rfl⟩

theorem zip_map_triple (f : Nat → Nat) (g : Nat → List Nat) :
    ∀ (l : List Nat),
      ((l.map f).zip (l.zip (l.map g))) = l.map (fun i => (f i, i, g i)) := by
  intro l
  induction l with
  | nil => simp
  | cons a t ih => simp [ih]

theorem varsPerNode_entry_eq {nodes : List Nat} {chains : Nat → List (List Nat)}
    {i : Nat} (hi : i ∈ nodes) :
    (List.range (chains i).length).map (fun idx => varOf nodes chains i idx)
      = List.range' (1 + offsetOf nodes chains i) (chains i).length := by
  have h1 : (List.range (chains i).length).map (fun idx => varOf nodes chains i idx)
      = (List.range (chains i).length).map
          (fun idx => 1 + offsetOf nodes chains i + idx) := by
    apply List.map_congr_left
    intro idx hidx
    exact varOf_eq hi (List.mem_range.mp hidx)
  rw [h1]
  rw [List.range'_eq_map_range]

theorem totalQubits_selection {nodes : List Nat} {chains : Nat → List (List Nat)}
    (sel : Nat → Nat) (hsel : ∀ i ∈ nodes, sel i < (chains i).length) :
    totalQubitsOf nodes chains (nodes.map (fun i => varOf nodes chains i (sel i)))
      = (nodes.map (fun i => ((chains i).getD (sel i) []).length)).sum := by
  unfold totalQubitsOf varsPerNode
  rw [zip_map_triple, List.map_map]
  congr 1
  apply List.map_congr_left
  intro i hi
  have hrw : (List.range (chains i).length).map (fun idx => varOf nodes chains i idx)
      = List.range' (1 + offsetOf nodes chains i) (chains i).length :=
    varsPerNode_entry_eq hi
  show ((chains i).getD (idxOf
      ((List.range (chains i).length).map (fun idx => varOf nodes chains i idx))
      (varOf nodes chains i (sel i))) []).length
    = ((chains i).getD (sel i) []).length
  rw [hrw, varOf_eq hi (hsel i hi), idxOf_range' _ _ _ (hsel i hi)]

theorem mem_qubitPipeline_exactlyOne {Gl Gp : Graph} {ec : Constraints} {x : List Int}
    (h : x ∈ (exactlyOneTyped (sortedNodes Gl) (qubitChainsFor Gp ec)).map
      (fun p => p.1)) :
    x ∈ qubitPipelineClauses Gl Gp ec := by
  unfold qubitPipelineClauses
  simp only [List.mem_append]
  exact Or.inl (Or.inl (Or.inl h))

theorem mem_qubitPipeline_maxQubit {Gl Gp : Graph} {ec : Constraints} {Q : Nat}
    {x : List Int} (hQ : ec.max_total_qubits = some Q)
    (h : x ∈ maxQubitClauses (sortedNodes Gl) (qubitChainsFor Gp ec) Q) :
    x ∈ qubitPipelineClauses Gl Gp ec := by
  unfold qubitPipelineClauses
  rw [hQ]
  simp only [List.mem_append]
  exact Or.inr h

theorem chosenIdx_spec {A : Nat → Bool} {nodes : List Nat}
    {chains : Nat → List (List Nat)} {i : Nat}
    (h : ∃ idx, idx < (chains i).length ∧ A (varOf nodes chains i idx) = true) :
    chosenIdx A nodes chains i < (chains i).length ∧
      A (varOf nodes chains i (chosenIdx A nodes chains i)) = true := by
  obtain ⟨idx, hidx, hA⟩ := h
  have hmem : idx ∈ (List.range (chains i).length).filter
      (fun idx => A (varOf nodes chains i idx)) := by
    rw [List.mem_filter]
    exact ⟨List.mem_range.mpr hidx, hA⟩
  unfold chosenIdx
  rcases hl : (List.range (chains i).length).filter
      (fun idx => A (varOf nodes chains i idx)) with _ | ⟨a, t⟩
  · rw [hl] at hmem
    simp at hmem
  · have hamem : a ∈ (List.range (chains i).length).filter
        (fun idx => A (varOf nodes chains i idx)) := by
      rw [hl]; simp
    rw [List.mem_filter] at hamem
    exact ⟨List.mem_range.mp hamem.1, hamem.2⟩

theorem foldl_min_le_init : ∀ (t : List Nat) (acc : Nat), t.foldl Nat.min acc ≤ acc := by
  intro t
  induction t with
  | nil => intro acc; simp
  | cons b t2 ih =>
    intro acc
    rw [List.foldl_cons]
    exact le_trans (ih (Nat.min acc b)) (Nat.min_le_left acc b)

theorem foldl_min_le_mem : ∀ (t : List Nat) (acc x : Nat), x ∈ t →
    t.foldl Nat.min acc ≤ x := by
  intro t
  induction t with
  | nil => intro acc x h; simp at h
  | cons b t2 ih =>
    intro acc x h
    rw [List.foldl_cons]
    rcases List.mem_cons.mp h with rfl | h2
    · exact le_trans (foldl_min_le_init t2 (Nat.min acc x)) (Nat.min_le_right acc x)
    · exact ih (Nat.min acc b) x h2

theorem minOf_le {l : List Nat} {x : Nat} (h : x ∈ l) : minOf l ≤ x := by
  rcases l with _ | ⟨a, t⟩
  · simp at h
  · unfold minOf
    rcases List.mem_cons.mp h with rfl | h2
    · exact foldl_min_le_init t x
    · exact foldl_min_le_mem t a x h2

/-- Claim C5: with max_total_qubits = Q configured, no satisfying assignment
of the full qubit-max pipeline selects chains whose sizes sum to more than Q;
in particular, when Q is below the sum of the smallest candidate-chain sizes,
the generated clause set is unsatisfiable. -/
theorem C5_max_total_qubits_bound (Gl Gp : Graph) (ec : Constraints) (Q : Nat)
    (hQ : ec.max_total_qubits = some Q)
    (hne : ∀ i ∈ sortedNodes Gl, qubitChainsFor Gp ec i ≠ []) :
    (∀ A : Nat → Bool, satAll A (qubitPipelineClauses Gl Gp ec) →
      ∀ sel : Nat → Nat,
        (∀ i ∈ sortedNodes Gl, sel i < (qubitChainsFor Gp ec i).length ∧
          A (varOf (sortedNodes Gl) (qubitChainsFor Gp ec) i (sel i)) = true) →
        ((sortedNodes Gl).map
          (fun i => ((qubitChainsFor Gp ec i).getD (sel i) []).length)).sum ≤ Q)
    ∧ (Q < minChainSum (sortedNodes Gl) (qubitChainsFor Gp ec) →
        ∀ A : Nat → Bool, ¬ satAll A (qubitPipelineClauses Gl Gp ec)) := by
  have hbound : ∀ A : Nat → Bool, satAll A (qubitPipelineClauses Gl Gp ec) →
      ∀ sel : Nat → Nat,
        (∀ i ∈ sortedNodes Gl, sel i < (qubitChainsFor Gp ec i).length ∧
          A (varOf (sortedNodes Gl) (qubitChainsFor Gp ec) i (sel i)) = true) →
        ((sortedNodes Gl).map
          (fun i => ((qubitChainsFor Gp ec i).getD (sel i) []).length)).sum ≤ Q := by
    intro A hsat sel hsel
    by_contra hgt
    rw [Nat.not_le] at hgt
    have hselmem : (sortedNodes Gl).map
        (fun i => varOf (sortedNodes Gl) (qubitChainsFor Gp ec) i (sel i))
        ∈ productList (varsPerNode (sortedNodes Gl) (qubitChainsFor Gp ec)) := by
      unfold varsPerNode
      apply mem_productList_map
      intro i hi
      exact List.mem_map.mpr ⟨sel i, List.mem_range.mpr (hsel i hi).1, rfl⟩
    have htotal : totalQubitsOf (sortedNodes Gl) (qubitChainsFor Gp ec)
        ((sortedNodes Gl).map
          (fun i => varOf (sortedNodes Gl) (qubitChainsFor Gp ec) i (sel i)))
        = ((sortedNodes Gl).map
          (fun i => ((qubitChainsFor Gp ec i).getD (sel i) []).length)).sum :=
      totalQubits_selection sel (fun i hi => (hsel i hi).1)
    have hclause : ((sortedNodes Gl).map
        (fun i => varOf (sortedNodes Gl) (qubitChainsFor Gp ec) i (sel i))).map
          (fun (v : Nat) => -(v : Int))
        ∈ maxQubitClauses (sortedNodes Gl) (qubitChainsFor Gp ec) Q := by
      unfold maxQubitClauses
      rw [List.mem_flatMap]
      refine ⟨_, hselmem, ?_⟩
      rw [if_pos (by rw [htotal]; exact hgt)]
      simp
    have hcs := hsat _ (mem_qubitPipeline_maxQubit hQ hclause)
    unfold clauseSat at hcs
    rw [List.any_eq_true] at hcs
    obtain ⟨lit, hlitmem, hlit⟩ := hcs
    rw [List.mem_map] at hlitmem
    obtain ⟨v, hv, rfl⟩ := hlitmem
    rw [List.mem_map] at hv
    obtain ⟨i, hi, rfl⟩ := hv
    rw [litSat_neg] at hlit
    have := (hsel i hi).2
    rw [this] at hlit
    simp at hlit
  refine ⟨hbound, ?_⟩
  intro hQlt A hsatA
  have hex : ∀ i ∈ sortedNodes Gl, ∃ idx,
      idx < (qubitChainsFor Gp ec i).length ∧
      A (varOf (sortedNodes Gl) (qubitChainsFor Gp ec) i idx) = true := by
    intro i hi
    have hcs := hsatA _ (mem_qubitPipeline_exactlyOne
      (mem_exactlyOne_atLeast (sortedNodes Gl) (qubitChainsFor Gp ec) hi (hne i hi)))
    unfold clauseSat at hcs
    rw [List.any_eq_true] at hcs
    obtain ⟨lit, hlitmem, hlit⟩ := hcs
    rw [List.mem_map] at hlitmem
    obtain ⟨idx, hidxr, rfl⟩ := hlitmem
    have hidx := List.mem_range.mp hidxr
    simp only [intVar] at hlit
    rw [litSat_pos (varOf_pos hi hidx)] at hlit
    exact ⟨idx, hidx, hlit⟩
  have hsel : ∀ i ∈ sortedNodes Gl,
      chosenIdx A (sortedNodes Gl) (qubitChainsFor Gp ec) i
        < (qubitChainsFor Gp ec i).length ∧
      A (varOf (sortedNodes Gl) (qubitChainsFor Gp ec) i
        (chosenIdx A (sortedNodes Gl) (qubitChainsFor Gp ec) i)) = true := by
    intro i hi
    exact chosenIdx_spec (hex i hi)
  have hle := hbound A hsatA
    (fun i => chosenIdx A (sortedNodes Gl) (qubitChainsFor Gp ec) i) hsel
  simp only [] at hle
  have hmin : minChainSum (sortedNodes Gl) (qubitChainsFor Gp ec)
      ≤ ((sortedNodes Gl).map
        (fun i => ((qubitChainsFor Gp ec i).getD
          (chosenIdx A (sortedNodes Gl) (qubitChainsFor Gp ec) i) []).length)).sum := by
    unfold minChainSum
    apply List.sum_le_sum
    intro i hi
    apply minOf_le
    rw [List.mem_map]
    refine ⟨(qubitChainsFor Gp ec i).getD
      (chosenIdx A (sortedNodes Gl) (qubitChainsFor Gp ec) i) [], ?_, rfl⟩
    rw [List.getD_eq_getElem _ _ (hsel i hi).1]
    exact List.getElem_mem (hsel i hi).1
  omega

/-- Witness for C5: two logical nodes, physical path 0-1-2 with singleton
chains, and max_total_qubits = 1 below the minimal total 2; the generated
clause set is unsatisfiable. -/
theorem C5_max_total_qubits_bound_witness :
    ((⟨[1], [], [], some 1⟩ : Constraints).max_total_qubits = some 1) ∧
    (∀ i ∈ sortedNodes ⟨[0, 1], []⟩,
      qubitChainsFor ⟨[0, 1, 2], [(0, 1), (1, 2)]⟩ ⟨[1], [], [], some 1⟩ i ≠ []) ∧
    (1 < minChainSum (sortedNodes ⟨[0, 1], []⟩)
      (qubitChainsFor ⟨[0, 1, 2], [(0, 1), (1, 2)]⟩ ⟨[1], [], [], some 1⟩)) ∧
    (∀ A : Nat → Bool, ¬ satAll A
      (qubitPipelineClauses ⟨[0, 1], []⟩ ⟨[0, 1, 2], [(0, 1), (1, 2)]⟩
        ⟨[1], [], [], some 1⟩)) := by
  refine ⟨rfl, by decide, by decide, ?_⟩
  exact (C5_max_total_qubits_bound ⟨[0, 1], []⟩ ⟨[0, 1, 2], [(0, 1), (1, 2)]⟩
    ⟨[1], [], [], some 1⟩ 1 rfl (by decide)).2 (by decide)

/- ------------------------------------------------------------------ -/
/- Chain generation properties                                         -/
/- ------------------------------------------------------------------ -/

theorem mem_of_contains {a : Nat} {l : List Nat} (h : l.contains a = true) : a ∈ l := by
  simpa using h

theorem has_edge_symm (G : Graph) (u v : Nat) : has_edge G u v = has_edge G v u := by
  unfold has_edge
  have h : ∀ es : List (Nat × Nat),
      es.any (fun e => (e.1 == u && e.2 == v) || (e.1 == v && e.2 == u))
        = es.any (fun e => (e.1 == v && e.2 == u) || (e.1 == u && e.2 == v)) := by
    intro es
    induction es with
    | nil => rfl
    | cons e t ih =>
      rw [List.any_cons, List.any_cons, ih,
        Bool.or_comm (e.1 == u && e.2 == v) (e.1 == v && e.2 == u)]
  exact h G.edges

theorem chainPathB_append_last (G : Graph) :
    ∀ (p : List Nat) (u v : Nat), chainPathB G p = true → p.getLast? = some u →
      has_edge G u v = true → chainPathB G (p ++ [v]) = true := by
  intro p
  induction p with
  | nil => intro u v _ hlast _; simp at hlast
  | cons a t ih =>
    intro u v hcp hlast he
    rcases t with _ | ⟨b, t2⟩
    · simp only [List.getLast?_singleton, Option.some.injEq] at hlast
      subst hlast
      show chainPathB G [a, v] = true
      unfold chainPathB
      rw [he]
      simp [chainPathB]
    · have hcp2 : has_edge G a b = true ∧ chainPathB G (b :: t2) = true := by
        have := hcp
        unfold chainPathB at this
        exact Bool.and_eq_true_iff.mp this
      have hlast2 : (b :: t2).getLast? = some u := by
        rw [List.getLast?_cons_cons] at hlast
        exact hlast
      have hrec := ih u v hcp2.2 hlast2 he
      rw [List.cons_append] at hrec
      show chainPathB G (a :: ((b :: t2) ++ [v])) = true
      rw [List.cons_append]
      unfold chainPathB
      rw [hcp2.1, hrec]
      rfl

theorem dfsExtend_spec (G : Graph) (target : Nat) :
    ∀ (fuel node : Nat) (path : List Nat), path ≠ [] → path.Nodup →
      chainPathB G path = true → path.getLast? = some node →
      ∀ c ∈ dfsExtend G target fuel node path,
        c ≠ [] ∧ c.Nodup ∧ chainPathB G c = true ∧ c.length = target := by
  intro fuel
  induction fuel with
  | zero =>
    intro node path hne hnd hcp _ c hc
    unfold dfsExtend at hc
    split at hc
    · rw [List.mem_singleton] at hc
      subst hc
      rename_i hlen
      exact ⟨hne, hnd, hcp, hlen⟩
    · simp at hc
  | succ m ih =>
    intro node path hne hnd hcp hlast c hc
    unfold dfsExtend at hc
    split at hc
    · rw [List.mem_singleton] at hc
      subst hc
      rename_i hlen
      exact ⟨hne, hnd, hcp, hlen⟩
    · rw [List.mem_flatMap] at hc
      obtain ⟨nb, hnb, hrec⟩ := hc
      rw [List.mem_filter] at hnb
      obtain ⟨hnbn, hnbnotin⟩ := hnb
      have hedge : has_edge G node nb = true := by
        unfold neighborsOf at hnbn
        exact (List.mem_filter.mp hnbn).2
      have hnotin : nb ∉ path := by
        intro hmem
        rw [contains_of_mem hmem] at hnbnotin
        simp at hnbnotin
      refine ih nb (path ++ [nb]) (by simp) ?_ ?_ ?_ c hrec
      · rw [List.nodup_append]
        exact ⟨hnd, List.nodup_singleton _, by simp [List.disjoint_left, hnotin]⟩
      · exact chainPathB_append_last G path node nb hcp hlast hedge
      · simp

theorem pathChainsRaw_spec {Gp : Graph} {ec : Constraints} {i : Nat} :
    ∀ p ∈ pathChainsRaw Gp ec i,
      p ≠ [] ∧ p.Nodup ∧ chainPathB Gp p = true ∧ p.length ∈ allowedSizes ec i := by
  intro p hp
  unfold pathChainsRaw at hp
  rw [List.mem_flatMap] at hp
  obtain ⟨len, hlen, hp2⟩ := hp
  rw [List.mem_flatMap] at hp2
  obtain ⟨start, _, hp3⟩ := hp2
  have := dfsExtend_spec Gp len len start [start] (by simp) (List.nodup_singleton _)
    (by unfold chainPathB; rfl) (by simp) p hp3
  exact ⟨this.1, this.2.1, this.2.2.1, by rw [this.2.2.2]; exact hlen⟩

/- Breadth-first reach facts. -/

theorem reachExpand_succ_out (G : Graph) (S : List Nat) :
    ∀ (n : Nat) (r : List Nat),
      reachExpand G S (n + 1) r = reachStep G S (reachExpand G S n r) := by
  intro n
  induction n with
  | zero => intro r; rfl
  | succ m ih =>
    intro r
    have h1 : reachExpand G S (m + 1 + 1) r
        = reachExpand G S (m + 1) (reachStep G S r) := rfl
    rw [h1, ih]
    rfl

theorem mem_reachStep_self {G : Graph} {S r : List Nat} {v : Nat}
    (hv : v ∈ r) (hS : v ∈ S) : v ∈ reachStep G S r := by
  unfold reachStep
  rw [List.mem_filter]
  exact ⟨hS, by rw [contains_of_mem hv]; simp⟩

theorem mem_reachStep_edge {G : Graph} {S r : List Nat} {u v : Nat}
    (hu : u ∈ r) (hS : v ∈ S) (he : has_edge G u v = true) :
    v ∈ reachStep G S r := by
  unfold reachStep
  rw [List.mem_filter]
  refine ⟨hS, ?_⟩
  have : r.any (fun u2 => has_edge G u2 v) = true := by
    rw [List.any_eq_true]
    exact ⟨u, hu, he⟩
  rw [this]
  simp

theorem reachExpand_subset (G : Graph) (S : List Nat) :
    ∀ (n : Nat) (r : List Nat), (∀ x ∈ r, x ∈ S) →
      ∀ x ∈ reachExpand G S n r, x ∈ S := by
  intro n
  induction n with
  | zero => intro r h x hx; exact h x hx
  | succ m ih =>
    intro r _ x hx
    have h1 : reachExpand G S (m + 1) r = reachExpand G S m (reachStep G S r) := rfl
    rw [h1] at hx
    exact ih (reachStep G S r) (fun y hy => (List.mem_filter.mp hy).1) x hx

theorem reachExpand_mono_fuel (G : Graph) (S : List Nat)
    (n : Nat) (r : List Nat) (hrS : ∀ x ∈ r, x ∈ S) :
    ∀ x ∈ reachExpand G S n r, x ∈ reachExpand G S (n + 1) r := by
  intro x hx
  rw [reachExpand_succ_out]
  exact mem_reachStep_self hx (reachExpand_subset G S n r hrS x hx)

theorem reachExpand_le_fuel (G : Graph) (S : List Nat) :
    ∀ (d n : Nat) (r : List Nat), (∀ x ∈ r, x ∈ S) →
      ∀ x ∈ reachExpand G S n r, x ∈ reachExpand G S (n + d) r := by
  intro d
  induction d with
  | zero => intro n r _ x hx; exact hx
  | succ m ih =>
    intro n r hrS x hx
    have h1 : n + (m + 1) = (n + m) + 1 := by omega
    rw [h1]
    exact reachExpand_mono_fuel G S (n + m) r hrS x (ih n r hrS x hx)

theorem chainPathB_adj (G : Graph) :
    ∀ (p : List Nat), chainPathB G p = true →
      ∀ (k : Nat) (hk1 : k + 1 < p.length),
        has_edge G (p.get ⟨k, by omega⟩) (p.get ⟨k + 1, hk1⟩) = true := by
  intro p
  induction p with
  | nil => intro _ k hk1; simp at hk1
  | cons a t ih =>
    intro hcp k hk1
    rcases t with _ | ⟨b, t2⟩
    · simp at hk1
    · have hcp2 : has_edge G a b = true ∧ chainPathB G (b :: t2) = true := by
        unfold chainPathB at hcp
        exact Bool.and_eq_true_iff.mp hcp
      cases k with
      | zero => exact hcp2.1
      | succ m =>
        have hm1 : m + 1 < (b :: t2).length := by
          simp only [List.length_cons] at hk1 ⊢
          omega
        have := ih hcp2.2 m hm1
        exact this

theorem isConnected_of_chainPath (G : Graph) (p : List Nat) (hne : p ≠ [])
    (hcp : chainPathB G p = true) :
    isConnected G (List.insertionSort (· ≤ ·) p) = true := by
  have hperm0 : (List.insertionSort (· ≤ ·) p).Perm p := List.perm_insertionSort _ p
  rcases hS : List.insertionSort (· ≤ ·) p with _ | ⟨h, t⟩
  · rw [hS] at hperm0
    have hl := hperm0.length_eq
    simp only [List.length_nil] at hl
    exact absurd (List.eq_nil_of_length_eq_zero hl.symm) hne
  · rw [hS] at hperm0
    have hhp : h ∈ p := hperm0.mem_iff.mp (by simp)
    rw [List.mem_iff_get] at hhp
    obtain ⟨⟨j, hj⟩, hgetj⟩ := hhp
    have hsub1 : ∀ x ∈ [h], x ∈ (h :: t) := by
      intro x hx
      rw [List.mem_singleton] at hx
      simp [hx]
    have key : ∀ m : Nat, ∀ k, ∀ hk : k < p.length, j - m ≤ k → k ≤ j + m →
        p.get ⟨k, hk⟩ ∈ reachExpand G (h :: t) m [h] := by
      intro m
      induction m with
      | zero =>
        intro k hk h1 h2
        have hkj : k = j := by omega
        subst hkj
        have hg : p.get ⟨k, hk⟩ = h := hgetj
        rw [hg]
        show h ∈ [h]
        simp
      | succ m ih =>
        intro k hk h1 h2
        by_cases hmid : j - m ≤ k ∧ k ≤ j + m
        · exact reachExpand_mono_fuel G (h :: t) m [h] hsub1 _ (ih k hk hmid.1 hmid.2)
        · rw [reachExpand_succ_out]
          rcases Nat.lt_or_ge (j + m) k with hright | hleft2
          · have hk1 : k - 1 < p.length := by omega
            have hmem1 := ih (k - 1) hk1 (by omega) (by omega)
            have hkk : (k - 1) + 1 < p.length := by omega
            have hadj0 := chainPathB_adj G p hcp (k - 1) hkk
            have hfe : (⟨(k - 1) + 1, hkk⟩ : Fin p.length) = ⟨k, hk⟩ := by
              apply Fin.ext
              show (k - 1) + 1 = k
              omega
            rw [hfe] at hadj0
            exact mem_reachStep_edge hmem1 (hperm0.mem_iff.mpr (p.get_mem _ _)) hadj0
          · have hlow : k + 1 ≤ j := by omega
            have hk1 : k + 1 < p.length := by omega
            have hmem1 := ih (k + 1) hk1 (by omega) (by omega)
            have hadj0 := chainPathB_adj G p hcp k hk1
            have hadj : has_edge G (p.get ⟨k + 1, hk1⟩) (p.get ⟨k, hk⟩) = true := by
              rw [has_edge_symm]
              exact hadj0
            exact mem_reachStep_edge hmem1 (hperm0.mem_iff.mpr (p.get_mem _ _)) hadj
    unfold isConnected
    rw [List.all_eq_true]
    intro v hv
    have hvp : v ∈ p := hperm0.mem_iff.mp hv
    rw [List.mem_iff_get] at hvp
    obtain ⟨⟨k, hk⟩, hgetk⟩ := hvp
    have hlen : (h :: t).length = p.length := hperm0.length_eq
    have hkey := key p.length k hk (by omega) (by omega)
    rw [hgetk] at hkey
    rw [hlen]
    exact contains_of_mem hkey

/-- Counterexample for C6: with fixed_mapping requiring physical node 1 for
logical node 0, both the subset-mode generator and the path-mode generator
still generate the chain (0,), which does not contain the required node
(these two variants enforce fixed mappings later, not at generation). -/
theorem C6_fixed_mapping_counterexample :
    (([0] ∈ subsetChainsFor ⟨[0, 1], [(0, 1)]⟩ ⟨[1], [], [(0, [1])], none⟩ 0)
      ∧ requiredOf ⟨[1], [], [(0, [1])], none⟩ 0 = [1]
      ∧ (1 : Nat) ∉ ([0] : List Nat))
    ∧ (([0] ∈ pathChainsFor ⟨[0, 1], [(0, 1)]⟩ ⟨[1], [], [(0, [1])], none⟩ 0)
      ∧ (1 : Nat) ∉ ([0] : List Nat)) := by
  refine ⟨⟨by decide, by decide, by decide⟩, ⟨by decide, by decide⟩⟩

/-- Amended C6: every generated chain is non-empty, duplicate-free, induces a
connected physical subgraph, and has its size in the node's permitted set —
for all three generators; containing the node's required fixed_mapping subset
additionally holds for the chains of generate_connected_chains (qubit-max
variant), while the subset-mode and path-mode generators generate chains
irrespective of fixed_mapping (enforcing it afterwards with unit clauses
respectively candidate filtering). -/
theorem C6_chain_generation_amended (Gp : Graph) (ec : Constraints) (i : Nat)
    (hnd : Gp.nodes.Nodup) (h0 : 0 ∉ allowedSizes ec i) :
    (∀ c ∈ qubitChainsFor Gp ec i,
      c ≠ [] ∧ c.Nodup ∧ isConnected Gp c = true ∧ c.length ∈ allowedSizes ec i
        ∧ ∀ r ∈ requiredOf ec i, r ∈ c)
    ∧ (∀ c ∈ subsetChainsFor Gp ec i,
      c ≠ [] ∧ c.Nodup ∧ isConnected Gp c = true ∧ c.length ∈ allowedSizes ec i)
    ∧ (∀ c ∈ pathChainsFor Gp ec i,
      c ≠ [] ∧ c.Nodup ∧ isConnected Gp c = true ∧ c.length ∈ allowedSizes ec i) := by
  refine ⟨?_, ?_, ?_⟩
  · intro c hc
    unfold qubitChainsFor at hc
    rw [List.mem_flatMap] at hc
    obtain ⟨k, hk, hc2⟩ := hc
    rw [List.mem_flatMap] at hc2
    obtain ⟨s, hscomb, hc3⟩ := hc2
    split at hc3
    · rename_i hcond
      rw [List.mem_singleton] at hc3
      obtain ⟨hall, hconn⟩ := Bool.and_eq_true_iff.mp hcond
      obtain ⟨hsub, hlen⟩ := combinations_spec hscomb
      have hsorted : List.Sorted (· ≤ ·) s := (sortedNodes_sorted Gp).sublist hsub
      have hceq : c = s := by
        rw [hc3]
        exact insertionSort_eq_self_of_sorted hsorted
      subst hceq
      refine ⟨?_, (sortedNodes_nodup Gp hnd).sublist hsub, hconn,
        by rw [hlen]; exact hk, ?_⟩
      · intro hcnil
        rw [hcnil] at hlen
        simp only [List.length_nil] at hlen
        rw [← hlen] at hk
        exact h0 hk
      · intro r hr
        rw [List.all_eq_true] at hall
        exact mem_of_contains (hall r hr)
    · simp at hc3
  · intro c hc
    unfold subsetChainsFor at hc
    rw [List.mem_flatMap] at hc
    obtain ⟨k, hk, hc2⟩ := hc
    rw [List.mem_filter] at hc2
    obtain ⟨hcomb, hconn⟩ := hc2
    obtain ⟨hsub, hlen⟩ := combinations_spec hcomb
    refine ⟨?_, (sortedNodes_nodup Gp hnd).sublist hsub, hconn,
      by rw [hlen]; exact hk⟩
    intro hcnil
    rw [hcnil] at hlen
    simp only [List.length_nil] at hlen
    rw [← hlen] at hk
    exact h0 hk
  · intro c hc
    unfold pathChainsFor at hc
    rw [List.mem_dedup] at hc
    rw [List.mem_map] at hc
    obtain ⟨p, hpraw, hceq⟩ := hc
    obtain ⟨hpne, hpnd, hpcp, hplen⟩ := pathChainsRaw_spec p hpraw
    have hcperm : c.Perm p := by
      rw [← hceq]
      exact List.perm_insertionSort _ p
    refine ⟨?_, hcperm.nodup_iff.mpr hpnd, ?_, ?_⟩
    · intro hcnil
      have := hcperm.length_eq
      rw [hcnil] at this
      simp only [List.length_nil] at this
      exact hpne (List.eq_nil_of_length_eq_zero this.symm)
    · rw [← hceq]
      exact isConnected_of_chainPath Gp p hpne hpcp
    · rw [hcperm.length_eq]
      exact hplen

/-- Witness for C6 (amended): the 4-node physical path with permitted sizes
{1,2}; all properties hold for every generated chain of all three
generators. -/
theorem C6_chain_generation_amended_witness :
    ((⟨[0, 1, 2, 3], [(0, 1), (1, 2), (2, 3)]⟩ : Graph).nodes.Nodup
      ∧ 0 ∉ allowedSizes ⟨[1, 2], [], [], none⟩ 0)
    ∧ (∀ c ∈ pathChainsFor ⟨[0, 1, 2, 3], [(0, 1), (1, 2), (2, 3)]⟩
        ⟨[1, 2], [], [], none⟩ 0,
      c ≠ [] ∧ c.Nodup
        ∧ isConnected ⟨[0, 1, 2, 3], [(0, 1), (1, 2), (2, 3)]⟩ c = true
        ∧ c.length ∈ allowedSizes ⟨[1, 2], [], [], none⟩ 0) := by
  refine ⟨⟨by decide, by decide⟩, ?_⟩
  exact (C6_chain_generation_amended ⟨[0, 1, 2, 3], [(0, 1), (1, 2), (2, 3)]⟩
    ⟨[1, 2], [], [], none⟩ 0 (by decide) (by decide)).2.2
